import Mathlib

/-!
Verification of the `sier2` dataflow-graph engine (`src/sier2/_dag.py`,
`_block.py`, `_library.py`) against its natural-language specification.

The Python code is shallowly embedded: blocks are identified by natural
numbers (object identity), Python dicts become insertion-ordered
association lists, the pending-updates deque becomes a `List`, and
fallible code returns `Except`.
-/

namespace Sier2

/-- A parameter value. Python values are opaque to the engine; the engine
itself only ever stores them, compares dict keys (strings), and inserts
the boolean restart marker, so a small inductive suffices. -/
inductive Val where
  | nat (n : Nat)
  | bool (b : Bool)
  | str (s : String)
deriving DecidableEq, Repr

/-- Python truthiness, as used by `item.values.pop(_RESTART, False)`. -/
def Val.truthy : Val → Bool
  | .nat n => n ≠ 0
  | .bool b => b
  | .str s => s ≠ ""

/-- Models `d[k] = v` on an insertion-ordered Python dict: overwrite in place if
the key is present, otherwise append at the end. -/
def dictSet (d : List (String × Val)) (k : String) (v : Val) : List (String × Val) :=
  match d with
  | [] => [(k, v)]
  | (k₀, v₀) :: rest =>
      if k₀ = k then (k₀, v) :: rest else (k₀, v₀) :: dictSet rest k v

/-- Models `d.get(k)` on a Python dict. -/
def dictGet (d : List (String × Val)) (k : String) : Option Val :=
  match d with
  | [] => none
  | (k₀, v₀) :: rest => if k₀ = k then some v₀ else dictGet rest k

@[simp] theorem dictGet_nil (k : String) : dictGet [] k = none := rfl

theorem dictGet_dictSet_self (d : List (String × Val)) (k : String) (v : Val) :
    dictGet (dictSet d k v) k = some v := by
  induction d with
  | nil => simp [dictSet, dictGet]
  | cons p rest ih =>
      obtain ⟨k₀, v₀⟩ := p
      by_cases h : k₀ = k <;> simp [dictSet, dictGet, h, ih]

theorem dictGet_dictSet_ne (d : List (String × Val)) (k k' : String) (v : Val)
    (hne : k' ≠ k) : dictGet (dictSet d k v) k' = dictGet d k' := by
  induction d with
  | nil => simp [dictSet, dictGet, Ne.symm hne]
  | cons p rest ih =>
      obtain ⟨k₀, v₀⟩ := p
      by_cases h : k₀ = k
      · subst h
        simp only [dictSet, if_pos rfl, dictGet, if_neg (Ne.symm hne)]
      · simp only [dictSet, if_neg h, dictGet, ih]

/-- Models `_InputValues` (`_dag.py` lines 73-89): one pending-update record of the
FIFO, holding the destination block (by identity) and the pending
input-parameter values. -/
structure InputValues where
  dst : Nat
  values : List (String × Val)
deriving DecidableEq, Repr

/-- The body of the `for event in events` loop of `Dag._param_event`
(`_dag.py` lines 401-408), after the input-parameter name `inp` has been
looked up in the destination block's `_block_name_map`: scan the FIFO for
the first record whose `dst` is the destination; if found, merge the new
value into its `values` dict; otherwise append a fresh record at the tail. -/
def paramEvent1 (queue : List InputValues) (dst : Nat) (inp : String) (new : Val) :
    List InputValues :=
  match queue with
  | [] => [⟨dst, [(inp, new)]⟩]
  | item :: rest =>
      if item.dst = dst then ⟨item.dst, dictSet item.values inp new⟩ :: rest
      else item :: paramEvent1 rest dst inp new

/-- A sequence of output-parameter assignment events, applied in order. -/
def applyEvents (queue : List InputValues) (evs : List (Nat × String × Val)) :
    List InputValues :=
  evs.foldl (fun q e => paramEvent1 q e.1 e.2.1 e.2.2) queue

/-- The FIFO holds at most one record per destination block. -/
def DstUnique (queue : List InputValues) : Prop :=
  (queue.map (·.dst)).Nodup

instance (queue : List InputValues) : Decidable (DstUnique queue) := by
  unfold DstUnique; infer_instance

/-- First record in the FIFO destined for `dst`, if any. -/
def findRecord (queue : List InputValues) (dst : Nat) : Option InputValues :=
  queue.find? (fun item => item.dst = dst)

/-- The pending value dict for `dst`: the values of its FIFO record, or
empty when it has none. -/
def pendingValues (queue : List InputValues) (dst : Nat) : List (String × Val) :=
  match findRecord queue dst with
  | some item => item.values
  | none => []

@[simp] theorem findRecord_nil (dst : Nat) : findRecord [] dst = none := rfl

theorem findRecord_cons_self (item : InputValues) (rest : List InputValues)
    (dst : Nat) (h : item.dst = dst) : findRecord (item :: rest) dst = some item := by
  simp [findRecord, List.find?_cons_of_pos, h]

theorem findRecord_cons_ne (item : InputValues) (rest : List InputValues)
    (dst : Nat) (h : item.dst ≠ dst) : findRecord (item :: rest) dst = findRecord rest dst := by
  simp [findRecord, List.find?_cons_of_neg, h]

theorem paramEvent1_dsts (queue : List InputValues) (dst : Nat) (inp : String) (new : Val) :
    (paramEvent1 queue dst inp new).map (·.dst) =
      if dst ∈ queue.map (·.dst) then queue.map (·.dst) else queue.map (·.dst) ++ [dst] := by
  induction queue with
  | nil => simp [paramEvent1]
  | cons item rest ih =>
      by_cases h : item.dst = dst
      · simp [paramEvent1, h]
      · simp only [paramEvent1, if_neg h, List.map_cons, List.mem_cons, ih]
        by_cases hmem : dst ∈ rest.map (·.dst)
        · simp [hmem]
        · simp [hmem, Ne.symm h]

theorem DstUnique.paramEvent1 {queue : List InputValues} (h : DstUnique queue)
    (dst : Nat) (inp : String) (new : Val) :
    DstUnique (paramEvent1 queue dst inp new) := by
  unfold DstUnique at *
  rw [paramEvent1_dsts]
  by_cases hmem : dst ∈ queue.map (·.dst)
  · simpa [hmem] using h
  · simpa [hmem, List.nodup_append] using h

theorem DstUnique.applyEvents {queue : List InputValues} (h : DstUnique queue)
    (evs : List (Nat × String × Val)) : DstUnique (Sier2.applyEvents queue evs) := by
  induction evs generalizing queue with
  | nil => simpa [Sier2.applyEvents] using h
  | cons e rest ih =>
      simpa [Sier2.applyEvents] using ih (h.paramEvent1 e.1 e.2.1 e.2.2)

/-- Merging: the updated record keeps its position; the new value wins for
its own field and all other pending fields are untouched. -/
theorem pendingValues_paramEvent1_self (queue : List InputValues) (dst : Nat)
    (inp : String) (new : Val) :
    pendingValues (paramEvent1 queue dst inp new) dst =
      dictSet (pendingValues queue dst) inp new := by
  induction queue with
  | nil =>
      simp only [paramEvent1, pendingValues, findRecord_nil]
      rw [findRecord_cons_self _ _ _ rfl]
      simp [dictSet]
  | cons item rest ih =>
      by_cases h : item.dst = dst
      · rw [paramEvent1, if_pos h]
        unfold pendingValues
        rw [findRecord_cons_self _ _ _ h,
          findRecord_cons_self (⟨item.dst, dictSet item.values inp new⟩) _ _ h]
      · rw [paramEvent1, if_neg h]
        unfold pendingValues
        rw [findRecord_cons_ne _ _ _ h, findRecord_cons_ne _ _ _ h]
        exact ih

theorem pendingValues_paramEvent1_other (queue : List InputValues) (dst d : Nat)
    (inp : String) (new : Val) (hne : d ≠ dst) :
    pendingValues (paramEvent1 queue dst inp new) d = pendingValues queue d := by
  induction queue with
  | nil =>
      simp only [paramEvent1, pendingValues, findRecord_nil]
      rw [findRecord_cons_ne _ _ _ (by simpa using Ne.symm hne), findRecord_nil]
  | cons item rest ih =>
      by_cases h : item.dst = dst
      · rw [paramEvent1, if_pos h]
        unfold pendingValues
        rw [findRecord_cons_ne _ _ _ (by simp [h, Ne.symm hne]),
          findRecord_cons_ne _ _ _ (by simp [h, Ne.symm hne])]
      · rw [paramEvent1, if_neg h]
        by_cases h' : item.dst = d
        · unfold pendingValues
          rw [findRecord_cons_self _ _ _ h', findRecord_cons_self _ _ _ h']
        · unfold pendingValues
          rw [findRecord_cons_ne _ _ _ h', findRecord_cons_ne _ _ _ h']
          exact ih

theorem paramEvent1_of_not_mem (queue : List InputValues) (dst : Nat)
    (inp : String) (new : Val) (h : dst ∉ queue.map (·.dst)) :
    paramEvent1 queue dst inp new = queue ++ [⟨dst, [(inp, new)]⟩] := by
  induction queue with
  | nil => simp [paramEvent1]
  | cons item rest ih =>
      simp only [List.map_cons, List.mem_cons] at h
      push_neg at h
      simp [paramEvent1, Ne.symm h.1, ih h.2]

/-- C1. For every sequence of output-parameter assignments on source
blocks (no block execution in between), the pending-updates FIFO holds at
most one record per destination block at every moment: an event whose
destination already has a record merges its field/value pair into that
record's values dict (overwriting a prior pending value for the same field,
leaving other fields and other destinations untouched), and otherwise a
fresh record is appended at the tail. -/
theorem param_event_merge_by_destination
    (queue : List InputValues) (h : DstUnique queue)
    (evs : List (Nat × String × Val)) :
    (∀ k, DstUnique (applyEvents queue (evs.take k))) ∧
    (∀ dst inp new,
      dictGet (pendingValues (paramEvent1 queue dst inp new) dst) inp = some new ∧
      (∀ f, f ≠ inp →
        dictGet (pendingValues (paramEvent1 queue dst inp new) dst) f =
          dictGet (pendingValues queue dst) f) ∧
      (∀ d, d ≠ dst →
        pendingValues (paramEvent1 queue dst inp new) d = pendingValues queue d) ∧
      (dst ∉ queue.map (·.dst) →
        paramEvent1 queue dst inp new = queue ++ [⟨dst, [(inp, new)]⟩])) := by
  refine ⟨fun k => h.applyEvents _, fun dst inp new => ⟨?_, ?_, ?_, ?_⟩⟩
  · rw [pendingValues_paramEvent1_self]
    exact dictGet_dictSet_self _ inp new
  · intro f hf
    rw [pendingValues_paramEvent1_self]
    exact dictGet_dictSet_ne _ inp f new hf
  · exact fun d hd => pendingValues_paramEvent1_other queue dst d inp new hd
  · exact fun hmem => paramEvent1_of_not_mem queue dst inp new hmem

/-- Witness for C1 at a concrete FIFO and event sequence. -/
theorem param_event_merge_by_destination_witness :
    DstUnique [⟨0, [("in_x", .nat 1)]⟩] ∧
    (∀ k, DstUnique (applyEvents [⟨0, [("in_x", .nat 1)]⟩]
      ((List.take k [(0, "in_y", .nat 2), (1, "in_x", .nat 3), (0, "in_x", .nat 4)])))) := by
  have h : DstUnique [⟨0, [("in_x", .nat 1)]⟩] := by decide
  exact ⟨h, (param_event_merge_by_destination _ h
    [(0, "in_y", .nat 2), (1, "in_x", .nat 3), (0, "in_x", .nat 4)]).1⟩

/-! ### `Dag.__init__` author handling (`_dag.py` lines 225-231) -/

/-- Python runtime faults surfaced by the embedded code. -/
inductive PyFault where
  /-- Models `TypeError: unhashable type` from subscripting a dict with a key
  containing a slice. -/
  | typeErrorUnhashable
  /-- Models `ValueError` raised explicitly. -/
  | valueError (msg : String)
deriving DecidableEq, Repr

/-- Does a Python dict (str keys) contain a key? (`'k' in d`). -/
def hasKey (d : List (String × String)) (k : String) : Bool :=
  d.any (fun p => p.1 = k)

/-- The author-handling fragment of `Dag.__init__` (`_dag.py` lines 225-231).

When `author` is given and has both keys, the source evaluates
`{'name': author['name', 'email': author: 'email']}`: the subscript is the
tuple `('name', slice('email', author, 'email'))`, and hashing a tuple
that contains a slice raises `TypeError: unhashable type: 'slice'` before
anything is stored. When a key is missing it raises
`ValueError('Author must contain name and email keys')`; when `author` is
omitted, `self.author` is set to `None`. -/
def dagInitAuthor (author : Option (List (String × String))) :
    Except PyFault (Option (List (String × String))) :=
  match author with
  | none => .ok none
  | some a =>
      if hasKey a "name" ∧ hasKey a "email" then
        .error .typeErrorUnhashable
      else
        .error (.valueError "Author must contain name and email keys")

/-- C8 (code bug). The claim says constructing a Dag with an author
mapping holding both `name` and `email` keys succeeds and stores the
author; in the code every such construction raises `TypeError`
(`_dag.py` line 227 subscripts the author dict with a tuple containing a
slice, which is unhashable). The missing-key and omitted-author cases
behave as claimed. -/
theorem dag_init_author_typeerror :
    dagInitAuthor (some [("name", "an author"), ("email", "author@example.org")]) =
      .error .typeErrorUnhashable ∧
    (∀ a : List (String × String), hasKey a "name" → hasKey a "email" →
      dagInitAuthor (some a) = .error .typeErrorUnhashable) ∧
    dagInitAuthor (some [("name", "an author")]) =
      .error (.valueError "Author must contain name and email keys") ∧
    dagInitAuthor none = .ok none := by
  refine ⟨rfl, fun a h1 h2 => ?_, rfl, rfl⟩
  simp [dagInitAuthor, h1, h2]

/-! ### `topological_sort` (`_dag.py` lines 735-814)

Blocks are Python objects compared by identity; we identify them with
natural numbers and carry their `name` attribute as a function
`Nat → String`. -/

/-- Models `has_incoming(pairs, m)` (`_dag.py` lines 770-771). -/
def hasIncoming (pairs : List (Nat × Nat)) (m : Nat) : Bool :=
  pairs.any (fun p => p.2 = m)

theorem hasIncoming_iff (pairs : List (Nat × Nat)) (m : Nat) :
    hasIncoming pairs m = true ↔ ∃ u, (u, m) ∈ pairs := by
  simp only [hasIncoming, List.any_eq_true, decide_eq_true_eq]
  constructor
  · rintro ⟨⟨u, d⟩, hmem, rfl⟩
    exact ⟨u, hmem⟩
  · rintro ⟨u, hmem⟩
    exact ⟨(u, m), hmem, rfl⟩

/-- The `for _, m in remaining[:]` loop of `topological_sort`
(`_dag.py` lines 790-794). `snap` is the snapshot `remaining[:]` taken at
loop entry; `edge(remaining, n, m)` returns the index of the first
occurrence of `(n, m)` and `del remaining[e]` removes it, which together
are `List.erase`. -/
def kahnInner (n : Nat) (snap remaining : List (Nat × Nat)) (snext : List Nat) :
    List (Nat × Nat) × List Nat :=
  match snap with
  | [] => (remaining, snext)
  | (_, m) :: rest =>
      if (n, m) ∈ remaining then
        let remaining' := remaining.erase (n, m)
        kahnInner n rest remaining'
          (if hasIncoming remaining' m then snext else snext ++ [m])
      else
        kahnInner n rest remaining snext

/-- Stable insertion into a name-sorted list: the inserted element goes in
front of the first element whose name is not smaller, so elements inserted
earlier in `sortByName`'s fold (i.e. later in the input list) stay behind
equal-named ones. -/
def insortByName (name : Nat → String) (a : Nat) : List Nat → List Nat
  | [] => [a]
  | b :: l => if name a ≤ name b then a :: b :: l else b :: insortByName name a l

/-- Models `sorted(..., key=lambda block: block.name)`: Python's `sorted` is a
stable sort by key, realised here as a stable insertion sort (any two
stable sorts agree on every input). -/
def sortByName (name : Nat → String) (l : List Nat) : List Nat :=
  l.foldr (insortByName name) []

theorem length_insortByName (name : Nat → String) (a : Nat) (l : List Nat) :
    (insortByName name a l).length = l.length + 1 := by
  induction l with
  | nil => rfl
  | cons b rest ih =>
      by_cases h : name a ≤ name b <;> simp [insortByName, h, ih]

theorem length_sortByName (name : Nat → String) (l : List Nat) :
    (sortByName name l).length = l.length := by
  induction l with
  | nil => rfl
  | cons b rest ih => simp [sortByName, length_insortByName, List.foldr] at ih ⊢; omega

theorem mem_insortByName (name : Nat → String) (a x : Nat) (l : List Nat) :
    x ∈ insortByName name a l ↔ x = a ∨ x ∈ l := by
  induction l with
  | nil => simp [insortByName]
  | cons b rest ih =>
      by_cases h : name a ≤ name b
      · simp [insortByName, h]
      · simp [insortByName, h, ih]
        tauto

theorem mem_sortByName (name : Nat → String) (l : List Nat) (a : Nat) :
    a ∈ sortByName name l ↔ a ∈ l := by
  induction l with
  | nil => simp [sortByName]
  | cons b rest ih =>
      simp only [sortByName, List.foldr] at ih ⊢
      rw [mem_insortByName, ih, List.mem_cons]

theorem nodup_insortByName (name : Nat → String) (a : Nat) (l : List Nat)
    (ha : ¬ a ∈ l) (h : l.Nodup) : (insortByName name a l).Nodup := by
  induction l with
  | nil => simp [insortByName]
  | cons b rest ih =>
      simp only [List.mem_cons, not_or] at ha
      by_cases hle : name a ≤ name b
      · simp only [insortByName, if_pos hle, List.nodup_cons]
        exact ⟨by simp only [List.mem_cons, not_or]; exact ⟨ha.1, ha.2⟩, List.nodup_cons.1 h⟩
      · simp only [insortByName, if_neg hle, List.nodup_cons]
        obtain ⟨hb, hrest⟩ := List.nodup_cons.1 h
        refine ⟨?_, ih ha.2 hrest⟩
        rw [mem_insortByName]
        rintro (rfl | hmem)
        · exact ha.1 rfl
        · exact hb hmem

theorem nodup_sortByName (name : Nat → String) (l : List Nat) (h : l.Nodup) :
    (sortByName name l).Nodup := by
  induction l with
  | nil => simp [sortByName]
  | cons b rest ih =>
      obtain ⟨hb, hrest⟩ := List.nodup_cons.1 h
      simp only [sortByName, List.foldr] at ih ⊢
      refine nodup_insortByName name b _ ?_ (ih hrest)
      rw [show (List.foldr (insortByName name) [] rest) = sortByName name rest from rfl,
        mem_sortByName]
      exact hb

theorem kahnInner_length (n : Nat) (snap : List (Nat × Nat)) :
    ∀ (remaining : List (Nat × Nat)) (snext : List Nat),
      (kahnInner n snap remaining snext).1.length +
        (kahnInner n snap remaining snext).2.length ≤
          remaining.length + snext.length := by
  induction snap with
  | nil => intro remaining snext; simp [kahnInner]
  | cons p rest ih =>
      intro remaining snext
      obtain ⟨x, m⟩ := p
      by_cases hmem : (n, m) ∈ remaining
      · have hlen : (remaining.erase (n, m)).length = remaining.length - 1 :=
          List.length_erase_of_mem hmem
        have hpos : 1 ≤ remaining.length := by
          cases remaining with
          | nil => simp at hmem
          | cons a b => simp
        by_cases hin : hasIncoming (remaining.erase (n, m)) m
        · have hrec := ih (remaining.erase (n, m)) snext
          simp only [kahnInner, if_pos hmem, if_pos hin]
          omega
        · have hrec := ih (remaining.erase (n, m)) (snext ++ [m])
          simp only [kahnInner, if_pos hmem, if_neg hin]
          simp only [List.length_append, List.length_cons, List.length_nil] at hrec ⊢
          omega
      · simp only [kahnInner, if_neg hmem]
        exact ih remaining snext

theorem kahnInner_sublist (n : Nat) (snap : List (Nat × Nat)) :
    ∀ (remaining : List (Nat × Nat)) (snext : List Nat),
      (kahnInner n snap remaining snext).1.Sublist remaining := by
  induction snap with
  | nil => intro remaining snext; simp [kahnInner]
  | cons p rest ih =>
      intro remaining snext
      obtain ⟨x, m⟩ := p
      by_cases hmem : (n, m) ∈ remaining
      · simp only [kahnInner, if_pos hmem]
        exact (ih _ _).trans (List.erase_sublist _ _)
      · simp only [kahnInner, if_neg hmem]
        exact ih _ _

theorem hasIncoming_false_of_sublist {r r' : List (Nat × Nat)} (h : r'.Sublist r)
    (m : Nat) (hfree : hasIncoming r m = false) : hasIncoming r' m = false := by
  by_contra hcon
  rw [Bool.not_eq_false, hasIncoming_iff] at hcon
  obtain ⟨u, hu⟩ := hcon
  have : hasIncoming r m = true := (hasIncoming_iff r m).2 ⟨u, h.mem hu⟩
  simp [this] at hfree

theorem count_le_filter_dst (l : List (Nat × Nat)) (n m : Nat) :
    l.count (n, m) ≤ (l.filter (fun p => p.2 = m)).length := by
  induction l with
  | nil => simp
  | cons p rest ih =>
      rw [List.count_cons, List.filter_cons]
      by_cases hp : p = (n, m)
      · subst hp
        rw [if_pos (by simp), if_pos (by simp)]
        simp only [List.length_cons]
        omega
      · rw [if_neg (by simp only [beq_iff_eq]; exact hp)]
        by_cases h2 : p.2 = m
        · rw [if_pos (by simpa using h2)]
          simp only [List.length_cons]
          omega
        · rw [if_neg (by simpa using h2)]
          omega

theorem kahnInner_count_ne (n : Nat) (snap : List (Nat × Nat)) :
    ∀ (remaining : List (Nat × Nat)) (snext : List Nat) (e : Nat × Nat), e.1 ≠ n →
      (kahnInner n snap remaining snext).1.count e = remaining.count e := by
  induction snap with
  | nil => intro remaining snext e _; simp [kahnInner]
  | cons p rest ih =>
      intro remaining snext e he
      obtain ⟨x, m⟩ := p
      by_cases hmem : (n, m) ∈ remaining
      · simp only [kahnInner, if_pos hmem]
        rw [ih _ _ e he, List.count_erase_of_ne (fun h => he (by rw [h])) _]
      · simp only [kahnInner, if_neg hmem]
        exact ih _ _ e he

theorem kahnInner_no_self (n : Nat) (snap : List (Nat × Nat)) :
    ∀ (remaining : List (Nat × Nat)) (snext : List Nat),
      (∀ m, remaining.count (n, m) ≤ ((snap.filter (fun p => p.2 = m)).length)) →
      ∀ m, ¬ (n, m) ∈ (kahnInner n snap remaining snext).1 := by
  induction snap with
  | nil =>
      intro remaining snext hcov m
      have := hcov m
      simp only [List.filter_nil, List.length_nil, Nat.le_zero, List.count_eq_zero] at this
      simpa [kahnInner] using this
  | cons p rest ih =>
      intro remaining snext hcov m
      obtain ⟨x, m₀⟩ := p
      by_cases hmem : (n, m₀) ∈ remaining
      · simp only [kahnInner, if_pos hmem]
        refine ih _ _ (fun m' => ?_) m
        by_cases hm : m' = m₀
        · subst hm
          have h1 : (remaining.erase (n, m')).count (n, m') = remaining.count (n, m') - 1 :=
            List.count_erase_self _ _
          have h2 := hcov m'
          simp only [List.filter_cons, decide_eq_true_eq] at h2
          rw [if_pos (by simp)] at h2
          simp only [List.length_cons] at h2
          omega
        · rw [List.count_erase_of_ne (by simp [hm]) _]
          have h2 := hcov m'
          simp only [List.filter_cons, decide_eq_true_eq] at h2
          rw [if_neg (by simp [Ne.symm hm])] at h2
          exact h2
      · simp only [kahnInner, if_neg hmem]
        refine ih _ _ (fun m' => ?_) m
        by_cases hm : m' = m₀
        · subst hm
          simp [List.count_eq_zero.2 hmem]
        · have h2 := hcov m'
          simp only [List.filter_cons, decide_eq_true_eq] at h2
          rw [if_neg (by simp [Ne.symm hm])] at h2
          exact h2

theorem kahnInner_snext_mono (n : Nat) (snap : List (Nat × Nat)) :
    ∀ (remaining : List (Nat × Nat)) (snext : List Nat),
      snext.Sublist (kahnInner n snap remaining snext).2 := by
  induction snap with
  | nil => intro remaining snext; simp [kahnInner]
  | cons p rest ih =>
      intro remaining snext
      obtain ⟨x, m⟩ := p
      by_cases hmem : (n, m) ∈ remaining
      · simp only [kahnInner, if_pos hmem]
        by_cases hin : hasIncoming (remaining.erase (n, m)) m
        · rw [if_pos hin]; exact ih _ _
        · rw [if_neg hin]
          exact ((List.sublist_append_left snext [m]).trans (ih _ _))
      · simp only [kahnInner, if_neg hmem]
        exact ih _ _

theorem kahnInner_snext_src (n : Nat) (snap : List (Nat × Nat)) :
    ∀ (remaining : List (Nat × Nat)) (snext : List Nat),
      ∀ m ∈ (kahnInner n snap remaining snext).2, m ∈ snext ∨ (n, m) ∈ remaining := by
  induction snap with
  | nil => intro remaining snext m hm; left; simpa [kahnInner] using hm
  | cons p rest ih =>
      intro remaining snext m hm
      obtain ⟨x, m₀⟩ := p
      by_cases hmem : (n, m₀) ∈ remaining
      · simp only [kahnInner, if_pos hmem] at hm
        by_cases hin : hasIncoming (remaining.erase (n, m₀)) m₀
        · rw [if_pos hin] at hm
          rcases ih _ _ m hm with h | h
          · exact Or.inl h
          · exact Or.inr ((List.erase_sublist _ _).mem h)
        · rw [if_neg hin] at hm
          rcases ih _ _ m hm with h | h
          · rcases List.mem_append.1 h with h' | h'
            · exact Or.inl h'
            · simp only [List.mem_singleton] at h'
              subst h'
              exact Or.inr hmem
          · exact Or.inr ((List.erase_sublist _ _).mem h)
      · simp only [kahnInner, if_neg hmem] at hm
        exact ih _ _ m hm

theorem kahnInner_snext_free (n : Nat) (snap : List (Nat × Nat)) :
    ∀ (remaining : List (Nat × Nat)) (snext : List Nat),
      (∀ m ∈ snext, hasIncoming remaining m = false) →
      ∀ m ∈ (kahnInner n snap remaining snext).2,
        hasIncoming (kahnInner n snap remaining snext).1 m = false := by
  induction snap with
  | nil =>
      intro remaining snext hfree m hm
      simp only [kahnInner] at hm ⊢
      exact hfree m hm
  | cons p rest ih =>
      intro remaining snext hfree m hm
      obtain ⟨x, m₀⟩ := p
      by_cases hmem : (n, m₀) ∈ remaining
      · simp only [kahnInner, if_pos hmem] at hm ⊢
        by_cases hin : hasIncoming (remaining.erase (n, m₀)) m₀
        · rw [if_pos hin] at hm ⊢
          refine ih _ _ (fun m' hm' => ?_) m hm
          exact hasIncoming_false_of_sublist (List.erase_sublist _ _) m' (hfree m' hm')
        · rw [if_neg hin] at hm ⊢
          refine ih _ _ (fun m' hm' => ?_) m hm
          rcases List.mem_append.1 hm' with h' | h'
          · exact hasIncoming_false_of_sublist (List.erase_sublist _ _) m' (hfree m' h')
          · simp only [List.mem_singleton] at h'
            subst h'
            simpa using hin
      · simp only [kahnInner, if_neg hmem] at hm ⊢
        exact ih _ _ hfree m hm

theorem kahnInner_snext_nodup (n : Nat) (snap : List (Nat × Nat)) :
    ∀ (remaining : List (Nat × Nat)) (snext : List Nat),
      (∀ m ∈ snext, hasIncoming remaining m = false) → snext.Nodup →
      (kahnInner n snap remaining snext).2.Nodup := by
  induction snap with
  | nil => intro remaining snext _ hnd; simpa [kahnInner] using hnd
  | cons p rest ih =>
      intro remaining snext hfree hnd
      obtain ⟨x, m₀⟩ := p
      by_cases hmem : (n, m₀) ∈ remaining
      · simp only [kahnInner, if_pos hmem]
        by_cases hin : hasIncoming (remaining.erase (n, m₀)) m₀
        · rw [if_pos hin]
          refine ih _ _ (fun m' hm' => ?_) hnd
          exact hasIncoming_false_of_sublist (List.erase_sublist _ _) m' (hfree m' hm')
        · rw [if_neg hin]
          refine ih _ _ (fun m' hm' => ?_) ?_
          · rcases List.mem_append.1 hm' with h' | h'
            · exact hasIncoming_false_of_sublist (List.erase_sublist _ _) m' (hfree m' h')
            · simp only [List.mem_singleton] at h'
              subst h'
              simpa using hin
          · rw [List.nodup_append]
            refine ⟨hnd, List.nodup_singleton _, ?_⟩
            intro a ha
            simp only [List.mem_singleton]
            intro heq
            subst heq
            have h1 := hfree a ha
            have h2 : hasIncoming remaining a = true :=
              (hasIncoming_iff _ _).2 ⟨n, hmem⟩
            simp [h2] at h1
      · simp only [kahnInner, if_neg hmem]
        exact ih _ _ hfree hnd

theorem kahnInner_snext_complete (n : Nat) (snap : List (Nat × Nat)) :
    ∀ (remaining : List (Nat × Nat)) (snext : List Nat) (m : Nat),
      hasIncoming remaining m = true →
      hasIncoming (kahnInner n snap remaining snext).1 m = false →
      m ∈ (kahnInner n snap remaining snext).2 := by
  induction snap with
  | nil =>
      intro remaining snext m hin hout
      simp only [kahnInner] at hout
      rw [hin] at hout
      cases hout
  | cons p rest ih =>
      intro remaining snext m hin hout
      obtain ⟨x, m₀⟩ := p
      by_cases hmem : (n, m₀) ∈ remaining
      · simp only [kahnInner, if_pos hmem] at hout ⊢
        by_cases hin' : hasIncoming (remaining.erase (n, m₀)) m = true
        · by_cases hinm₀ : hasIncoming (remaining.erase (n, m₀)) m₀
          · rw [if_pos hinm₀] at hout ⊢
            exact ih _ _ m hin' hout
          · rw [if_neg hinm₀] at hout ⊢
            exact ih _ _ m hin' hout
        · -- the erased edge was the last incoming edge of m, so m₀ = m
          rw [Bool.not_eq_true] at hin'
          have hm₀ : m₀ = m := by
            by_contra hne
            obtain ⟨u, hu⟩ := (hasIncoming_iff _ _).1 hin
            have : (u, m) ∈ remaining.erase (n, m₀) :=
              List.mem_erase_of_ne (by simp [hne]; intro _ h; exact hne h.symm) |>.2 hu
            have : hasIncoming (remaining.erase (n, m₀)) m = true :=
              (hasIncoming_iff _ _).2 ⟨u, this⟩
            rw [this] at hin'
            cases hin'
          subst hm₀
          rw [if_neg (by rw [hin']; simp)] at hout ⊢
          have : m₀ ∈ snext ++ [m₀] := by simp
          exact (kahnInner_snext_mono n rest _ _).mem this
      · simp only [kahnInner, if_neg hmem] at hout ⊢
        exact ih _ _ m hin hout

/-- The `while S` loop of `topological_sort` (`_dag.py` lines 782-799):
pop the head of the deque `S`, append it to `L`, run the inner loop over
the snapshot of `remaining`, sort the next layer by block name and extend
`S` with it. -/
def kahnLoopF (name : Nat → String) : Nat → List Nat → List (Nat × Nat) → List Nat →
    List Nat × List (Nat × Nat)
  | _, [], remaining, L => (L, remaining)
  | fuel + 1, n :: S, remaining, L =>
      let r := kahnInner n remaining remaining []
      kahnLoopF name fuel (S ++ sortByName name r.2) r.1 (L ++ [n])
  | 0, _ :: _, remaining, L => (L, remaining)

/-- Each iteration pops one element of `S` and adds at most as many new
worklist elements as it deletes edges (`kahnInner_length`), so
`S.length + remaining.length` bounds the number of iterations: with at
least that much fuel, `kahnLoopF` never hits its fuel cutoff. -/
theorem kahnLoopF_congr (name : Nat → String) :
    ∀ (fuel fuel' : Nat) (S : List Nat) (remaining : List (Nat × Nat)) (L : List Nat),
      S.length + remaining.length ≤ fuel → S.length + remaining.length ≤ fuel' →
      kahnLoopF name fuel S remaining L = kahnLoopF name fuel' S remaining L := by
  intro fuel
  induction fuel with
  | zero =>
      intro fuel' S remaining L h _
      have hS : S = [] := List.length_eq_zero.1 (by omega)
      subst hS
      cases fuel' <;> rfl
  | succ fuel ih =>
      intro fuel' S remaining L h h'
      cases S with
      | nil => cases fuel' <;> rfl
      | cons n S₁ =>
          cases fuel' with
          | zero => simp only [List.length_cons] at h'; omega
          | succ fuel₁ =>
              have hmeasure := kahnInner_length n remaining remaining []
              simp only [List.length_nil, Nat.add_zero] at hmeasure
              simp only [List.length_cons] at h h'
              rw [kahnLoopF, kahnLoopF]
              refine ih fuel₁ _ _ _ ?_ ?_ <;>
                simp only [List.length_append, length_sortByName] <;> omega

/-- The `while S` loop of `topological_sort` (`_dag.py` lines 782-799):
pop the head of the deque `S`, append it to `L`, run the inner loop over
the snapshot of `remaining`, sort the next layer by block name and extend
`S` with it. The Python loop terminates unconditionally; here it runs on
the fuel `S.length + remaining.length`, which `kahnLoopF_congr` shows is
never exhausted. -/
def kahnLoop (name : Nat → String) (S : List Nat) (remaining : List (Nat × Nat))
    (L : List Nat) : List Nat × List (Nat × Nat) :=
  kahnLoopF name (S.length + remaining.length) S remaining L

/-- Models `topological_sort(pairs)` (`_dag.py` lines 735-801). The initial
worklist is the set of sources that are not destinations, deduplicated
(Python `set`) and sorted by block name. -/
def topological_sort (name : Nat → String) (pairs : List (Nat × Nat)) :
    List Nat × List (Nat × Nat) :=
  if pairs.isEmpty then ([], [])
  else
    let srcs := pairs.map (·.1)
    let dsts := pairs.map (·.2)
    kahnLoop name (sortByName name ((srcs.filter (fun s => ¬ s ∈ dsts)).dedup)) pairs []

/-- All blocks mentioned by an edge list. -/
def nodesOf (pairs : List (Nat × Nat)) : List Nat :=
  pairs.map (·.1) ++ pairs.map (·.2)

/-- A directed walk along the edge list: `Walk pairs u [x₁, …, xₖ]` means
`(u,x₁), (x₁,x₂), …` are all edges. -/
def Walk (pairs : List (Nat × Nat)) : Nat → List Nat → Prop
  | _, [] => True
  | u, x :: xs => ((u, x) ∈ pairs) ∧ Walk pairs x xs

/-- The last vertex of the walk `u :: p`. -/
def endOf (u : Nat) (p : List Nat) : Nat :=
  p.getLast?.getD u

/-- The edge list contains a (directed) cycle: a nonempty walk from some
vertex back to itself. -/
def HasCycleIn (pairs : List (Nat × Nat)) : Prop :=
  ∃ v p, p ≠ [] ∧ Walk pairs v p ∧ p.getLast? = some v

@[simp] theorem endOf_nil (u : Nat) : endOf u [] = u := rfl

theorem endOf_cons (u x : Nat) (xs : List Nat) : endOf u (x :: xs) = endOf x xs := by
  cases xs with
  | nil => rfl
  | cons y ys =>
      unfold endOf
      rw [List.getLast?_cons_cons]
      have hsome : (y :: ys).getLast?.isSome := List.getLast?_isSome.2 (by simp)
      obtain ⟨l, hl⟩ := Option.isSome_iff_exists.1 hsome
      rw [hl]
      rfl

theorem walk_append (pairs : List (Nat × Nat)) (xs : List Nat) :
    ∀ (u : Nat) (ys : List Nat),
      Walk pairs u (xs ++ ys) ↔ Walk pairs u xs ∧ Walk pairs (endOf u xs) ys := by
  induction xs with
  | nil => intro u ys; simp [Walk]
  | cons x rest ih =>
      intro u ys
      rw [List.cons_append]
      show ((u, x) ∈ pairs) ∧ Walk pairs x (rest ++ ys) ↔ _
      constructor
      · rintro ⟨he, hw⟩
        rw [ih x ys] at hw
        exact ⟨⟨he, hw.1⟩, by rw [endOf_cons]; exact hw.2⟩
      · rintro ⟨⟨he, hw⟩, hend⟩
        rw [endOf_cons] at hend
        exact ⟨he, (ih x ys).2 ⟨hw, hend⟩⟩

theorem walk_mono {pairs pairs' : List (Nat × Nat)} (hsub : ∀ e ∈ pairs, e ∈ pairs') :
    ∀ (p : List Nat) (u : Nat), Walk pairs u p → Walk pairs' u p := by
  intro p
  induction p with
  | nil => intro u _; trivial
  | cons x xs ih =>
      intro u hw
      exact ⟨hsub _ hw.1, ih x hw.2⟩

theorem walk_mem_nodes {pairs : List (Nat × Nat)} :
    ∀ (p : List Nat) (u : Nat), Walk pairs u p → ∀ x ∈ p, x ∈ nodesOf pairs := by
  intro p
  induction p with
  | nil => intro u _ x hx; cases hx
  | cons y ys ih =>
      intro u hw x hx
      rcases List.mem_cons.1 hx with rfl | hx'
      · exact List.mem_append.2 (Or.inr (List.mem_map.2 ⟨(u, x), hw.1, rfl⟩))
      · exact ih y hw.2 x hx'

/-- If every edge of `L` orders its endpoints, a nonempty walk strictly
increases the position of its endpoint. -/
theorem walk_indexOf_lt {pairs : List (Nat × Nat)} {L : List Nat}
    (horder : ∀ e ∈ pairs, L.indexOf e.1 < L.indexOf e.2) :
    ∀ (p : List Nat) (v : Nat), p ≠ [] → Walk pairs v p →
      L.indexOf v < L.indexOf (endOf v p) := by
  intro p
  induction p with
  | nil => intro v h _; exact absurd rfl h
  | cons x xs ih =>
      intro v _ hw
      rw [endOf_cons]
      cases xs with
      | nil => simpa using horder (v, x) hw.1
      | cons y ys =>
          exact (horder (v, x) hw.1).trans (ih x (by simp) hw.2)

theorem not_hasCycleIn_of_order {pairs : List (Nat × Nat)} {L : List Nat}
    (horder : ∀ e ∈ pairs, L.indexOf e.1 < L.indexOf e.2) : ¬ HasCycleIn pairs := by
  rintro ⟨v, p, hne, hw, hlast⟩
  have hend : endOf v p = v := by simp [endOf, hlast]
  have := walk_indexOf_lt horder p v hne hw
  rw [hend] at this
  exact Nat.lt_irrefl _ this

/-- One loop of a walk is a cycle: given a walk from `a` whose tail
returns to `a`, close it up. -/
theorem hasCycleIn_of_walk_mid {pairs : List (Nat × Nat)} {a : Nat} {l₂ l₃ : List Nat}
    (hw : Walk pairs a (l₂ ++ a :: l₃)) : HasCycleIn pairs := by
  have h1 := (walk_append pairs l₂ a (a :: l₃)).1 hw
  refine ⟨a, l₂ ++ [a], by simp, ?_, ?_⟩
  · exact (walk_append pairs l₂ a [a]).2 ⟨h1.1, h1.2.1, trivial⟩
  · simp

/-- Pigeonhole: a nonempty edge list in which every edge's source also has
an incoming edge contains a cycle. -/
theorem hasCycleIn_of_sources_fed {rem : List (Nat × Nat)} (hne : rem ≠ [])
    (hfed : ∀ e ∈ rem, hasIncoming rem e.1 = true) : HasCycleIn rem := by
  classical
  obtain ⟨e₀, hrest, he₀⟩ : ∃ e₀ rest, rem = e₀ :: rest := by
    cases rem with
    | nil => exact absurd rfl hne
    | cons a b => exact ⟨a, b, rfl⟩
  -- every vertex with an outgoing edge has a predecessor that itself has
  -- an outgoing edge
  have step : ∀ u, (∃ w, (u, w) ∈ rem) → ∃ u', ((u', u) ∈ rem) ∧ ∃ w, (u', w) ∈ rem := by
    rintro u ⟨w, hw⟩
    obtain ⟨u', hu'⟩ := (hasIncoming_iff rem u).1 (hfed (u, w) hw)
    exact ⟨u', hu', u, hu'⟩
  -- backward chains of every length ending at the source of the head edge
  have chain : ∀ k : Nat, ∃ v p, Walk rem v p ∧ endOf v p = e₀.1 ∧ p.length = k ∧
      ∃ w, (v, w) ∈ rem := by
    intro k
    induction k with
    | zero => exact ⟨e₀.1, [], trivial, rfl, rfl, e₀.2, by rw [he₀]; simp⟩
    | succ k ih =>
        obtain ⟨v, p, hwalk, hend, hlen, hout⟩ := ih
        obtain ⟨v', hv', hout'⟩ := step v hout
        refine ⟨v', v :: p, ⟨hv', hwalk⟩, ?_, by simp [hlen], hout'⟩
        rw [endOf_cons]
        exact hend
    -- take a chain longer than the number of vertices and find a repeat
  obtain ⟨v, p, hwalk, -, hlen, hout⟩ := chain ((nodesOf rem).length + 1)
  have hsubset : ∀ x ∈ v :: p, x ∈ nodesOf rem := by
    intro x hx
    rcases List.mem_cons.1 hx with rfl | hx'
    · obtain ⟨w, hw⟩ := hout
      exact List.mem_append.2 (Or.inl (List.mem_map.2 ⟨(x, w), hw, rfl⟩))
    · exact walk_mem_nodes p v hwalk x hx'
  have hnotnodup : ¬ (v :: p).Nodup := by
    intro hnd
    have h1 : (v :: p).toFinset.card = (v :: p).length := List.toFinset_card_of_nodup hnd
    have h2 : (v :: p).toFinset ⊆ (nodesOf rem).toFinset := by
      intro x hx
      rw [List.mem_toFinset] at hx ⊢
      exact hsubset x hx
    have h3 := Finset.card_le_card h2
    have h4 := List.toFinset_card_le (nodesOf rem)
    simp only [List.length_cons, hlen] at h1
    omega
  obtain ⟨a, hdup⟩ := List.exists_duplicate_iff_not_nodup.2 hnotnodup
  have hsl : [a, a].Sublist (v :: p) := List.duplicate_iff_sublist.1 hdup
  rw [List.cons_sublist_iff] at hsl
  obtain ⟨r₁, r₂, hsplit, ha₁, hsl₂⟩ := hsl
  have ha₂ : a ∈ r₂ := List.singleton_sublist.1 hsl₂
  obtain ⟨x₁, x₂, hx⟩ := List.append_of_mem ha₁
  obtain ⟨y₁, y₂, hy⟩ := List.append_of_mem ha₂
  subst hx hy
  -- v :: p = x₁ ++ a :: (x₂ ++ y₁) ++ a :: y₂
  have hshape : v :: p = x₁ ++ a :: ((x₂ ++ y₁) ++ a :: y₂) := by
    rw [hsplit]; simp
  cases x₁ with
  | nil =>
      simp only [List.nil_append] at hshape
      have hv : v = a := by injection hshape
      have hp : p = (x₂ ++ y₁) ++ a :: y₂ := by injection hshape
      subst hv
      rw [hp] at hwalk
      exact hasCycleIn_of_walk_mid hwalk
  | cons w t =>
      have hv : v = w := by injection hshape
      have hp : p = t ++ a :: ((x₂ ++ y₁) ++ a :: y₂) := by injection hshape
      rw [hp] at hwalk
      have h2 := ((walk_append rem t v _).1 hwalk).2
      exact hasCycleIn_of_walk_mid h2.2

/-- Models `_has_cycle(block_pairs)` (`_dag.py` lines 803-806). -/
def has_cycle (name : Nat → String) (pairs : List (Nat × Nat)) : Bool :=
  decide (0 < (topological_sort name pairs).2.length)

/-- Models `_get_sorted(block_pairs)` (`_dag.py` lines 808-814): raises
`BlockError` when the sort leaves edges unremoved. -/
def get_sorted (name : Nat → String) (pairs : List (Nat × Nat)) :
    Except String (List Nat) :=
  let r := topological_sort name pairs
  if r.2.isEmpty then .ok r.1 else .error "Dag contains a cycle"

theorem mem_iff_of_count_eq {l l' : List (Nat × Nat)} {e : Nat × Nat}
    (h : l.count e = l'.count e) : e ∈ l ↔ e ∈ l' := by
  rw [← List.count_pos_iff, ← List.count_pos_iff, h]

/-- The loop invariant of `topological_sort`'s `while S` loop, relative to
the original edge list `pairs₀`. -/
structure KahnInv (pairs₀ : List (Nat × Nat)) (S : List Nat)
    (remaining : List (Nat × Nat)) (L : List Nat) : Prop where
  rem_sub : remaining.Sublist pairs₀
  deleted_src : ∀ e ∈ pairs₀, ¬ e.1 ∈ L → e ∈ remaining
  s_free : ∀ v ∈ S, hasIncoming remaining v = false
  l_free : ∀ v ∈ L, hasIncoming remaining v = false
  l_nodup : L.Nodup
  s_nodup : S.Nodup
  disj : ∀ v ∈ S, ¬ v ∈ L
  cover : ∀ v ∈ nodesOf pairs₀, v ∈ L ∨ v ∈ S ∨ hasIncoming remaining v = true
  l_done : ∀ u ∈ L, ∀ m, ¬ (u, m) ∈ remaining
  l_sub : ∀ v ∈ L, v ∈ nodesOf pairs₀
  s_sub : ∀ v ∈ S, v ∈ nodesOf pairs₀
  edge_order : ∀ e ∈ pairs₀, e.2 ∈ L → e.1 ∈ L ∧ L.indexOf e.1 < L.indexOf e.2

theorem KahnInv.step (name : Nat → String) {pairs₀ : List (Nat × Nat)}
    {n : Nat} {S : List Nat} {remaining : List (Nat × Nat)} {L : List Nat}
    (h : KahnInv pairs₀ (n :: S) remaining L) :
    KahnInv pairs₀ (S ++ sortByName name (kahnInner n remaining remaining []).2)
      (kahnInner n remaining remaining []).1 (L ++ [n]) := by
  set r := kahnInner n remaining remaining [] with hr
  have hsub : r.1.Sublist remaining := kahnInner_sublist n remaining remaining []
  have hsrc : ∀ m ∈ r.2, (n, m) ∈ remaining := by
    intro m hm
    rcases kahnInner_snext_src n remaining remaining [] m hm with h' | h'
    · cases h'
    · exact h'
  have hfree2 : ∀ m ∈ r.2, hasIncoming r.1 m = false :=
    kahnInner_snext_free n remaining remaining [] (by intro m hm; cases hm)
  have hnd2 : r.2.Nodup :=
    kahnInner_snext_nodup n remaining remaining [] (by intro m hm; cases hm) List.nodup_nil
  have hnoself : ∀ m, ¬ (n, m) ∈ r.1 :=
    kahnInner_no_self n remaining remaining []
      (fun m => count_le_filter_dst remaining n m)
  have hkeep : ∀ e : Nat × Nat, e.1 ≠ n → (e ∈ r.1 ↔ e ∈ remaining) :=
    fun e he => mem_iff_of_count_eq (kahnInner_count_ne n remaining remaining [] e he)
  have hnfree : hasIncoming remaining n = false := h.s_free n (List.mem_cons_self n S)
  have hnL : ¬ n ∈ L := h.disj n (List.mem_cons_self n S)
  have hsnext_in : ∀ m ∈ sortByName name r.2, (n, m) ∈ remaining := by
    intro m hm
    exact hsrc m ((mem_sortByName name r.2 m).1 hm)
  have hsnext_hasinc : ∀ m ∈ sortByName name r.2, hasIncoming remaining m = true := by
    intro m hm
    exact (hasIncoming_iff _ _).2 ⟨n, hsnext_in m hm⟩
  refine ⟨?_, ?_, ?_, ?_, ?_, ?_, ?_, ?_, ?_, ?_, ?_, ?_⟩
  · exact hsub.trans h.rem_sub
  · -- deleted_src
    intro e he hnotL
    simp only [List.mem_append, List.mem_singleton, not_or] at hnotL
    have h1 : e ∈ remaining := h.deleted_src e he hnotL.1
    exact (hkeep e hnotL.2).2 h1
  · -- s_free
    intro v hv
    rcases List.mem_append.1 hv with hv' | hv'
    · exact hasIncoming_false_of_sublist hsub v (h.s_free v (List.mem_cons_of_mem n hv'))
    · exact hfree2 v ((mem_sortByName name r.2 v).1 hv')
  · -- l_free
    intro v hv
    rcases List.mem_append.1 hv with hv' | hv'
    · exact hasIncoming_false_of_sublist hsub v (h.l_free v hv')
    · simp only [List.mem_singleton] at hv'
      subst hv'
      exact hasIncoming_false_of_sublist hsub v hnfree
  · -- l_nodup
    rw [List.nodup_append]
    exact ⟨h.l_nodup, List.nodup_singleton n, by
      intro a ha
      simp only [List.mem_singleton]
      intro heq
      subst heq
      exact hnL ha⟩
  · -- s_nodup
    rw [List.nodup_append]
    refine ⟨(List.nodup_cons.1 h.s_nodup).2, nodup_sortByName name r.2 hnd2, ?_⟩
    intro a ha ha'
    have h1 := h.s_free a (List.mem_cons_of_mem n ha)
    have h2 := hsnext_hasinc a ha'
    rw [h1] at h2
    cases h2
  · -- disj
    intro v hv
    rcases List.mem_append.1 hv with hv' | hv'
    · intro hvL
      rcases List.mem_append.1 hvL with hL | hL
      · exact h.disj v (List.mem_cons_of_mem n hv') hL
      · simp only [List.mem_singleton] at hL
        subst hL
        exact (List.nodup_cons.1 h.s_nodup).1 hv'
    · intro hvL
      have h2 := hsnext_hasinc v hv'
      rcases List.mem_append.1 hvL with hL | hL
      · rw [h.l_free v hL] at h2; cases h2
      · simp only [List.mem_singleton] at hL
        subst hL
        rw [hnfree] at h2; cases h2
  · -- cover
    intro v hv
    rcases h.cover v hv with hL | hS | hinc
    · exact Or.inl (List.mem_append.2 (Or.inl hL))
    · rcases List.mem_cons.1 hS with rfl | hS'
      · exact Or.inl (List.mem_append.2 (Or.inr (List.mem_singleton.2 rfl)))
      · exact Or.inr (Or.inl (List.mem_append.2 (Or.inl hS')))
    · by_cases hinc' : hasIncoming r.1 v = true
      · exact Or.inr (Or.inr hinc')
      · have hmem : v ∈ r.2 := kahnInner_snext_complete n remaining remaining [] v hinc
          (Bool.not_eq_true _ ▸ hinc')
        exact Or.inr (Or.inl (List.mem_append.2 (Or.inr ((mem_sortByName name r.2 v).2 hmem))))
  · -- l_done
    intro u hu m
    rcases List.mem_append.1 hu with hu' | hu'
    · intro hmem
      exact h.l_done u hu' m (hsub.mem hmem)
    · simp only [List.mem_singleton] at hu'
      subst hu'
      exact hnoself m
  · -- l_sub
    intro v hv
    rcases List.mem_append.1 hv with hv' | hv'
    · exact h.l_sub v hv'
    · simp only [List.mem_singleton] at hv'
      subst hv'
      exact h.s_sub v (List.mem_cons_self v S)
  · -- s_sub
    intro v hv
    rcases List.mem_append.1 hv with hv' | hv'
    · exact h.s_sub v (List.mem_cons_of_mem n hv')
    · have := hsnext_in v hv'
      exact List.mem_append.2 (Or.inr (List.mem_map.2 ⟨(n, v), h.rem_sub.mem this, rfl⟩))
  · -- edge_order
    intro e he hdst
    rcases List.mem_append.1 hdst with hL | hL
    · obtain ⟨h1, h2⟩ := h.edge_order e he hL
      refine ⟨List.mem_append.2 (Or.inl h1), ?_⟩
      rw [List.indexOf_append_of_mem h1, List.indexOf_append_of_mem hL]
      exact h2
    · simp only [List.mem_singleton] at hL
      -- e.2 = n: all incoming edges of n are gone, so e.1 was processed
      have hnotrem : ¬ e ∈ remaining := by
        intro hmem
        have : hasIncoming remaining n = true := by
          refine (hasIncoming_iff _ _).2 ⟨e.1, ?_⟩
          rw [← hL]
          simpa using hmem
        rw [hnfree] at this; cases this
      have hsrcL : e.1 ∈ L := by
        by_contra hcon
        exact hnotrem (h.deleted_src e he hcon)
      refine ⟨List.mem_append.2 (Or.inl hsrcL), ?_⟩
      rw [List.indexOf_append_of_mem hsrcL, hL, List.indexOf_append_of_not_mem hnL,
        List.indexOf_cons_self]
      have := List.indexOf_lt_length.2 hsrcL
      omega

theorem kahnLoopF_inv (name : Nat → String) (pairs₀ : List (Nat × Nat)) :
    ∀ (fuel : Nat) (S : List Nat) (remaining : List (Nat × Nat)) (L : List Nat),
      S.length + remaining.length ≤ fuel → KahnInv pairs₀ S remaining L →
      KahnInv pairs₀ [] (kahnLoopF name fuel S remaining L).2
        (kahnLoopF name fuel S remaining L).1 := by
  intro fuel
  induction fuel with
  | zero =>
      intro S remaining L hlen hinv
      have hS : S = [] := List.length_eq_zero.1 (by omega)
      subst hS
      simpa [kahnLoopF] using hinv
  | succ fuel ih =>
      intro S remaining L hlen hinv
      match S with
      | [] => simpa [kahnLoopF] using hinv
      | n :: S' =>
          have hstep := hinv.step name
          have hmeasure := kahnInner_length n remaining remaining []
          simp only [List.length_nil, Nat.add_zero] at hmeasure
          show KahnInv pairs₀ []
            (kahnLoopF name (fuel + 1) (n :: S') remaining L).2
            (kahnLoopF name (fuel + 1) (n :: S') remaining L).1
          rw [kahnLoopF]
          refine ih _ _ _ ?_ hstep
          simp only [List.length_append, length_sortByName, List.length_cons] at *
          omega

theorem kahnLoop_inv (name : Nat → String) (pairs₀ : List (Nat × Nat))
    (S : List Nat) (remaining : List (Nat × Nat)) (L : List Nat)
    (hinv : KahnInv pairs₀ S remaining L) :
    KahnInv pairs₀ [] (kahnLoop name S remaining L).2 (kahnLoop name S remaining L).1 :=
  kahnLoopF_inv name pairs₀ _ S remaining L (Nat.le_refl _) hinv

theorem kahnInv_init (name : Nat → String) (pairs : List (Nat × Nat)) :
    KahnInv pairs
      (sortByName name (((pairs.map (·.1)).filter
        (fun s => ¬ s ∈ pairs.map (·.2))).dedup))
      pairs [] := by
  set S₀ := sortByName name
    (((pairs.map (·.1)).filter (fun s => ¬ s ∈ pairs.map (·.2))).dedup) with hS₀
  have hmemS : ∀ v, v ∈ S₀ ↔ (v ∈ pairs.map (·.1) ∧ ¬ v ∈ pairs.map (·.2)) := by
    intro v
    rw [hS₀, mem_sortByName, List.mem_dedup, List.mem_filter]
    simp
  refine ⟨List.Sublist.refl pairs, fun e he _ => he, ?_, ?_, List.nodup_nil, ?_, ?_, ?_,
    ?_, ?_, ?_, ?_⟩
  · -- s_free
    intro v hv
    have h2 := ((hmemS v).1 hv).2
    rw [← Bool.not_eq_true, hasIncoming_iff]
    rintro ⟨u, hu⟩
    exact h2 (List.mem_map.2 ⟨(u, v), hu, rfl⟩)
  · intro v hv; cases hv
  · exact nodup_sortByName name _ (List.nodup_dedup _)
  · intro v _; simp
  · -- cover
    intro v hv
    rcases List.mem_append.1 hv with hsrc | hdst
    · by_cases hd : v ∈ pairs.map (·.2)
      · obtain ⟨⟨u, w⟩, hu, rfl⟩ := List.mem_map.1 hd
        exact Or.inr (Or.inr ((hasIncoming_iff _ _).2 ⟨u, hu⟩))
      · exact Or.inr (Or.inl ((hmemS v).2 ⟨hsrc, hd⟩))
    · obtain ⟨⟨u, w⟩, hu, rfl⟩ := List.mem_map.1 hdst
      exact Or.inr (Or.inr ((hasIncoming_iff _ _).2 ⟨u, hu⟩))
  · intro u hu; cases hu
  · intro v hv; cases hv
  · -- s_sub
    intro v hv
    exact List.mem_append.2 (Or.inl ((hmemS v).1 hv).1)
  · intro e _ h2; cases h2

theorem topological_sort_inv (name : Nat → String) (pairs : List (Nat × Nat)) :
    KahnInv pairs [] (topological_sort name pairs).2 (topological_sort name pairs).1 := by
  by_cases hne : pairs.isEmpty
  · have : pairs = [] := by
      cases pairs with
      | nil => rfl
      | cons a b => simp [List.isEmpty] at hne
    subst this
    refine ⟨?_, ?_, ?_, ?_, ?_, ?_, ?_, ?_, ?_, ?_, ?_, ?_⟩ <;>
      simp [topological_sort, nodesOf]
  · unfold topological_sort
    rw [if_neg (by simpa using hne)]
    exact kahnLoop_inv name pairs _ pairs [] (kahnInv_init name pairs)

/-- When no edges are left over, the output list is a topological order of
exactly the blocks of the dag. -/
theorem topological_sort_complete (name : Nat → String) (pairs : List (Nat × Nat))
    (hdone : (topological_sort name pairs).2 = []) :
    ((topological_sort name pairs).1.Nodup ∧
      (∀ v, v ∈ (topological_sort name pairs).1 ↔ v ∈ nodesOf pairs)) ∧
    (∀ e ∈ pairs, (topological_sort name pairs).1.indexOf e.1 <
      (topological_sort name pairs).1.indexOf e.2) := by
  have hinv := topological_sort_inv name pairs
  rw [hdone] at hinv
  have hmem : ∀ v, v ∈ (topological_sort name pairs).1 ↔ v ∈ nodesOf pairs := by
    intro v
    constructor
    · exact fun hv => hinv.l_sub v hv
    · intro hv
      rcases hinv.cover v hv with h | h | h
      · exact h
      · cases h
      · rw [show hasIncoming [] v = false from rfl] at h; cases h
  refine ⟨⟨hinv.l_nodup, hmem⟩, ?_⟩
  intro e he
  have hdst : e.2 ∈ (topological_sort name pairs).1 :=
    (hmem e.2).2 (List.mem_append.2 (Or.inr (List.mem_map.2 ⟨e, he, rfl⟩)))
  exact (hinv.edge_order e he hdst).2

theorem remaining_empty_iff_no_cycle (name : Nat → String) (pairs : List (Nat × Nat)) :
    (topological_sort name pairs).2 = [] ↔ ¬ HasCycleIn pairs := by
  constructor
  · intro hdone hcyc
    exact not_hasCycleIn_of_order ((topological_sort_complete name pairs hdone).2) hcyc
  · intro hnocyc
    by_contra hne
    have hinv := topological_sort_inv name pairs
    set rem := (topological_sort name pairs).2 with hrem
    have hfed : ∀ e ∈ rem, hasIncoming rem e.1 = true := by
      intro e he
      have hL : ¬ e.1 ∈ (topological_sort name pairs).1 := by
        intro hL
        exact hinv.l_done e.1 hL e.2 (by simpa using he)
      have hnode : e.1 ∈ nodesOf pairs :=
        List.mem_append.2 (Or.inl (List.mem_map.2 ⟨e, hinv.rem_sub.mem he, rfl⟩))
      rcases hinv.cover e.1 hnode with h | h | h
      · exact absurd h hL
      · cases h
      · exact h
    have hcyc : HasCycleIn rem := hasCycleIn_of_sources_fed hne hfed
    obtain ⟨v, p, hp, hw, hlast⟩ := hcyc
    exact hnocyc ⟨v, p, hp, walk_mono (fun e he => hinv.rem_sub.mem he) p v hw, hlast⟩

/-- C5. For an acyclic edge list, `get_sorted` returns every block of
the dag exactly once, with `u` before `v` for every edge `(u, v)`; given a
cycle, `has_cycle` returns true and `get_sorted` raises `BlockError`. -/
theorem topological_sort_correct (name : Nat → String) (pairs : List (Nat × Nat)) :
    (¬ HasCycleIn pairs →
      get_sorted name pairs = .ok (topological_sort name pairs).1 ∧
      (topological_sort name pairs).1.Nodup ∧
      (∀ v, v ∈ (topological_sort name pairs).1 ↔ v ∈ nodesOf pairs) ∧
      (∀ e ∈ pairs, (topological_sort name pairs).1.indexOf e.1 <
        (topological_sort name pairs).1.indexOf e.2)) ∧
    (HasCycleIn pairs →
      has_cycle name pairs = true ∧
      get_sorted name pairs = .error "Dag contains a cycle") := by
  constructor
  · intro hnocyc
    have hdone : (topological_sort name pairs).2 = [] :=
      (remaining_empty_iff_no_cycle name pairs).2 hnocyc
    have h := topological_sort_complete name pairs hdone
    refine ⟨?_, h.1.1, h.1.2, h.2⟩
    unfold get_sorted
    rw [if_pos (by simp [hdone])]
  · intro hcyc
    have hne : (topological_sort name pairs).2 ≠ [] := by
      intro hdone
      exact ((remaining_empty_iff_no_cycle name pairs).1 hdone) hcyc
    constructor
    · unfold has_cycle
      simp only [decide_eq_true_eq]
      cases h : (topological_sort name pairs).2 with
      | nil => exact absurd h hne
      | cons a b => simp [h]
    · unfold get_sorted
      rw [if_neg (by simpa using hne)]

/-- Witness for C5: a concrete acyclic dag is fully sorted, and a concrete
cyclic edge list is reported as a cycle. -/
theorem topological_sort_correct_witness :
    get_sorted (fun n => toString n) [(0, 1), (0, 2), (1, 2)] = .ok [0, 1, 2] ∧
    has_cycle (fun n => toString n) [(3, 4), (4, 3)] = true := by
  constructor
  · have h := (topological_sort_correct (fun n => toString n) [(0, 1), (0, 2), (1, 2)]).1
    have hnocyc : ¬ HasCycleIn [(0, 1), (0, 2), (1, 2)] := by
      have hdone : (topological_sort (fun n : Nat => toString n)
          [(0, 1), (0, 2), (1, 2)]).2 = [] := by rfl
      exact (remaining_empty_iff_no_cycle _ _).1 hdone
    have h2 := (h hnocyc).1
    rw [h2]
    rfl
  · have h := (topological_sort_correct (fun n => toString n) [(3, 4), (4, 3)]).2
    have hcyc : HasCycleIn [(3, 4), (4, 3)] := by
      refine ⟨3, [4, 3], by simp, ?_, by simp⟩
      show ((3, 4) ∈ [(3, 4), (4, 3)]) ∧ ((4, 3) ∈ [(3, 4), (4, 3)]) ∧ True
      simp
    exact (h hcyc).1

/-! ### The dag builder: `Dag.connect` / `Dag.disconnect`
(`_dag.py` lines 278-360 and 556-595) -/

/-- Models `BlockState` (`_block.py` lines 18-29). -/
inductive BState where
  | dag | block | input | ready | executing | waiting | successful | interrupted | error
deriving DecidableEq, Repr

/-- Generic insertion-ordered dict assignment (`d[k] = v`). -/
def alistSet {α β : Type} [DecidableEq α] (d : List (α × β)) (k : α) (v : β) :
    List (α × β) :=
  match d with
  | [] => [(k, v)]
  | (k₀, v₀) :: rest =>
      if k₀ = k then (k₀, v) :: rest else (k₀, v₀) :: alistSet rest k v

/-- The state of one `Block` object (`_block.py`): its `name`,
`_wait_for_input`, `_block_state`, `_has_prepared`, `_block_name_map`
(mapping `(source block name, source param name)` to the input param
name), its declared params (param name → `allow_refs`), and whether
`super().__init__` ran (`hasattr(b, 'doc')`). -/
structure BlockS where
  name : String
  wfi : Bool
  bstate : BState
  hasPrepared : Bool
  nameMap : List ((String × String) × String)
  params : List (String × Bool)
  hasDoc : Bool
deriving DecidableEq, Repr

/-- One `src.param.watch(lambda *events: self._param_event(dst, *events),
src_out_params)` subscription (`_dag.py` line 357). -/
structure Watcher where
  src : Nat
  params : List String
  dst : Nat
deriving DecidableEq, Repr

/-- A `Dag` together with the heap of `Block` objects. Blocks are Python
objects with identity; `blocks` maps each identity to the object's state
(attribute access on an object never fails, so the heap is total). -/
structure DagS where
  blocks : Nat → BlockS
  pairs : List (Nat × Nat)
  bag : List Nat
  watchers : List Watcher
  queue : List InputValues
  stopped : Bool

/-- Mutate the block object `g` in place. -/
def updBlock (blocks : Nat → BlockS) (g : Nat) (f : BlockS → BlockS) : Nat → BlockS :=
  fun x => if x = g then f (blocks g) else blocks x

@[simp] theorem updBlock_self (blocks : Nat → BlockS) (g : Nat) (f : BlockS → BlockS) :
    updBlock blocks g f g = f (blocks g) := by simp [updBlock]

theorem updBlock_ne (blocks : Nat → BlockS) (g g' : Nat) (f : BlockS → BlockS)
    (hne : g' ≠ g) : updBlock blocks g f g' = blocks g' := by simp [updBlock, hne]

/-- Models `block.name`, as used for sorting and the name map. -/
def heapNameOf (d : DagS) (g : Nat) : String := (d.blocks g).name

/-- Models `_for_each_once(pairs)` (`_dag.py` lines 816-824): yield each block of
the edge list once, in first-appearance order. -/
def forEachOnce (pairs : List (Nat × Nat)) : List Nat :=
  (pairs.flatMap (fun p => [p.1, p.2])).foldl
    (fun acc g => if g ∈ acc then acc else acc ++ [g]) []

/-- The errors `Dag.connect` can raise, in source order. `attrFault` is
the `AttributeError` from `getattr(src.param, src_param_name)` on a
missing param; the rest are `BlockError`s. -/
inductive ConnectErr where
  | noDoc
  | cycle
  | sameName
  | dupName
  | alreadyConnected
  | notConnected
  | noConnections
  | attrFault
  | allowRefs
deriving DecidableEq, Repr

/-- The `for src_param_name, dst_param_name in Connections.conns(...)`
loop of `Dag.connect` (`_dag.py` lines 345-355). The destination's
name-map is mutated connection by connection, so an error part-way leaves
the earlier entries in place; the accumulated `src_out_params` list is
also returned. -/
def connectLoop (sname : String) (params : List (String × Bool)) :
    List (String × String) → List ((String × String) × String) → List String →
    Option ConnectErr × List ((String × String) × String) × List String
  | [], nm, ops => (none, nm, ops)
  | (spn, dpn) :: rest, nm, ops =>
      match params.lookup spn with
      | none => (some .attrFault, nm, ops)
      | some allowRefs =>
          if allowRefs then (some .allowRefs, nm, ops)
          else connectLoop sname params rest (alistSet nm (sname, spn) dpn) (ops ++ [spn])

/-- Models `Dag.connect(src, dst, *connections)` (`_dag.py` lines 278-360), with
the connections already flattened to `(src_param, dst_param)` pairs by
`Connections.conns`. Returns the error (if any) together with the
resulting state: every check before the connection loop leaves the state
untouched, while the loop mutates `dst._block_name_map` in place before
the error is raised. -/
def connect (d : DagS) (src dst : Nat) (conns : List (String × String)) :
    Option ConnectErr × DagS :=
  if ¬ ((d.blocks src).hasDoc && (d.blocks dst).hasDoc) then (some .noDoc, d)
  else if has_cycle (heapNameOf d) (d.pairs ++ [(src, dst)]) then (some .cycle, d)
  else if (d.blocks src).name = (d.blocks dst).name then (some .sameName, d)
  else if (forEachOnce d.pairs).any (fun g =>
      (g ≠ src ∧ heapNameOf d g = (d.blocks src).name) ∨
      (g ≠ dst ∧ heapNameOf d g = (d.blocks dst).name)) then
    (some .dupName, d)
  else if d.pairs.any (fun p => p.1 = src ∧ p.2 = dst) then (some .alreadyConnected, d)
  else if ¬ d.pairs.isEmpty ∧ ¬ d.pairs.any (fun p =>
      p.1 = src ∨ p.2 = src ∨ p.1 = dst ∨ p.2 = dst) then (some .notConnected, d)
  else if conns.isEmpty then (some .noConnections, d)
  else
    match connectLoop (d.blocks src).name (d.blocks src).params conns
        (d.blocks dst).nameMap [] with
    | (some e, nm, _) =>
        (some e, { d with blocks := updBlock d.blocks dst (fun b => { b with nameMap := nm }) })
    | (none, nm, ops) =>
        (none, { d with
          blocks := updBlock d.blocks dst (fun b => { b with nameMap := nm }),
          watchers := d.watchers ++ [⟨src, ops, dst⟩],
          pairs := d.pairs ++ [(src, dst)] })

/-- Models `str.startswith(prefix)`: character-level prefix test. -/
def strStartsWith (s p : String) : Bool := p.data.isPrefixOf s.data

/-- Models `Connection.__post_init__` (`_dag.py` lines 27-32): field-prefix
validation happens when a `Connection` is constructed, before `connect`
is ever entered. -/
def mkConnection (spn dpn : String) : Except String (String × String) :=
  if ¬ strStartsWith spn "out_" then .error "Output params must start with \x22out_\x22"
  else if ¬ strStartsWith dpn "in_" then .error "Input params must start with \x22in_\x22"
  else .ok (spn, dpn)

/-- The depth-first reachability loop of `_is_connected` (`_dag.py` lines
837-847). The Python loop pops from the end of `stack`; traversal order
does not affect the visited set, and each push adds a new block to
`visited`, so `1 + 2 * pairs.length` fuel is never exhausted. -/
def reachLoop (pairs : List (Nat × Nat)) : Nat → List Nat → List Nat → List Nat
  | 0, _, visited => visited
  | _ + 1, [], visited => visited
  | fuel + 1, current :: stack, visited =>
      let sv := pairs.foldl (fun (sv : List Nat × List Nat) p =>
        if p.1 = current ∧ ¬ p.2 ∈ sv.2 then (sv.1 ++ [p.2], sv.2 ++ [p.2])
        else if p.2 = current ∧ ¬ p.1 ∈ sv.2 then (sv.1 ++ [p.1], sv.2 ++ [p.1])
        else sv) (stack, visited)
      reachLoop pairs fuel sv.1 sv.2

/-- Models `_is_connected(pairs)` (`_dag.py` lines 826-849). -/
def pyIsConnected (pairs : List (Nat × Nat)) : Bool :=
  match pairs with
  | [] => true
  | (s₀, _) :: _ =>
      let nBlocks := (forEachOnce pairs).length
      let visited := reachLoop pairs (1 + 2 * pairs.length) [s₀] [s₀]
      visited.length = nBlocks

/-- Models `Dag.disconnect(g)` (`_dag.py` lines 556-595). After the
connectedness check on `maybe_pairs` (the edge list without `g`'s edges,
written out twice here in place of the Python local): unwatch every
watcher on `g`, **and every watcher on any block with an edge into `g`**
(the source loop at lines 581-586 removes all of that block's watchers,
not only the ones feeding `g`); install the filtered edge list; clear
`g`'s name map. -/
def disconnect (d : DagS) (g : Nat) : Option String × DagS :=
  if ¬ pyIsConnected (d.pairs.filter (fun p => ¬ p.1 = g ∧ ¬ p.2 = g)) then
    (some "Disconnecting this block would result in a disconnected dag", d)
  else
    (none, { d with
      watchers := d.watchers.filter (fun w =>
        ¬ (w.src = g ∨ d.pairs.any (fun p => p.2 = g ∧ p.1 = w.src))),
      pairs := d.pairs.filter (fun p => ¬ p.1 = g ∧ ¬ p.2 = g),
      blocks := updBlock d.blocks g (fun b => { b with nameMap := [] }) })

/-- Assigning an output parameter `p := v` on block `src`: `param`
delivers one change event to every watcher of `p` on `src`; the
`Dag._param_event` callback then merges the event into the pending-update
FIFO (`paramEvent1`) under the input name found in the destination's
`_block_name_map` (entries installed by `connect`; no watcher exists
without its entry). -/
def assignOutput (d : DagS) (src : Nat) (p : String) (v : Val) : DagS :=
  { d with queue := d.watchers.foldl (fun q w =>
      if w.src = src ∧ p ∈ w.params then
        match (d.blocks w.dst).nameMap.lookup ((d.blocks src).name, p) with
        | some inp => paramEvent1 q w.dst inp v
        | none => q
      else q) d.queue }

theorem connectLoop_partial (sname : String) (params : List (String × Bool)) :
    ∀ (conns : List (String × String)) (nm : List ((String × String) × String))
      (ops : List String),
      ∃ pre rest, conns = pre ++ rest ∧
        (connectLoop sname params conns nm ops).2.1 =
          pre.foldl (fun nm c => alistSet nm (sname, c.1) c.2) nm := by
  intro conns
  induction conns with
  | nil => intro nm ops; exact ⟨[], [], rfl, rfl⟩
  | cons c rest ih =>
      intro nm ops
      obtain ⟨spn, dpn⟩ := c
      match hlk : params.lookup spn with
      | none => exact ⟨[], (spn, dpn) :: rest, rfl, by simp [connectLoop, hlk]⟩
      | some ar =>
          by_cases har : ar = true
          · subst har
            exact ⟨[], (spn, dpn) :: rest, rfl, by simp [connectLoop, hlk]⟩
          · rw [Bool.not_eq_true] at har
            obtain ⟨pre', rest', hsplit, hres⟩ :=
              ih (alistSet nm (sname, spn) dpn) (ops ++ [spn])
            refine ⟨(spn, dpn) :: pre', rest', by simp [hsplit], ?_⟩
            simp only [connectLoop, hlk, har, List.foldl_cons]
            simpa using hres

/-- C7 (corrected). When `connect` raises, the edge list, the
installed watchers, the bag, the FIFO, the stop flag and every block other
than `dst` are unchanged, and `dst` changes at most in its
`_block_name_map`, which gains exactly the entries of the connections
processed before the failing one. (The original claim — that the name
maps too are always untouched — fails: the loop writes
`dst._block_name_map` before validating later connections, see the
counterexample.) -/
theorem connect_error_frame (d : DagS) (src dst : Nat) (conns : List (String × String))
    (e : ConnectErr) (herr : (connect d src dst conns).1 = some e) :
    (connect d src dst conns).2.pairs = d.pairs ∧
    (connect d src dst conns).2.watchers = d.watchers ∧
    (connect d src dst conns).2.bag = d.bag ∧
    (connect d src dst conns).2.queue = d.queue ∧
    (connect d src dst conns).2.stopped = d.stopped ∧
    (∀ g, g ≠ dst → (connect d src dst conns).2.blocks g = d.blocks g) ∧
    (((connect d src dst conns).2.blocks dst).name = (d.blocks dst).name ∧
      ((connect d src dst conns).2.blocks dst).wfi = (d.blocks dst).wfi ∧
      ((connect d src dst conns).2.blocks dst).bstate = (d.blocks dst).bstate ∧
      ((connect d src dst conns).2.blocks dst).hasPrepared = (d.blocks dst).hasPrepared ∧
      ((connect d src dst conns).2.blocks dst).params = (d.blocks dst).params ∧
      ((connect d src dst conns).2.blocks dst).hasDoc = (d.blocks dst).hasDoc) ∧
    (∃ pre rest, conns = pre ++ rest ∧
      ((connect d src dst conns).2.blocks dst).nameMap = pre.foldl
        (fun nm c => alistSet nm ((d.blocks src).name, c.1) c.2) (d.blocks dst).nameMap) := by
  have hid : ∀ (dd : DagS), dd = d →
      dd.pairs = d.pairs ∧ dd.watchers = d.watchers ∧ dd.bag = d.bag ∧
      dd.queue = d.queue ∧ dd.stopped = d.stopped ∧
      (∀ g, g ≠ dst → dd.blocks g = d.blocks g) ∧
      ((dd.blocks dst).name = (d.blocks dst).name ∧
        (dd.blocks dst).wfi = (d.blocks dst).wfi ∧
        (dd.blocks dst).bstate = (d.blocks dst).bstate ∧
        (dd.blocks dst).hasPrepared = (d.blocks dst).hasPrepared ∧
        (dd.blocks dst).params = (d.blocks dst).params ∧
        (dd.blocks dst).hasDoc = (d.blocks dst).hasDoc) ∧
      (∃ pre rest, conns = pre ++ rest ∧
        (dd.blocks dst).nameMap = pre.foldl
          (fun nm c => alistSet nm ((d.blocks src).name, c.1) c.2) (d.blocks dst).nameMap) := by
    rintro dd rfl
    exact ⟨rfl, rfl, rfl, rfl, rfl, fun _ _ => rfl,
      ⟨rfl, rfl, rfl, rfl, rfl, rfl⟩, [], conns, rfl, rfl⟩
  by_cases h1 : ¬ ((d.blocks src).hasDoc && (d.blocks dst).hasDoc)
  · have hC : connect d src dst conns = (some .noDoc, d) := by
      unfold connect; rw [if_pos (by simpa using h1)]
    simp only [hC]
    exact ⟨trivial, trivial, trivial, trivial, trivial, fun _ _ => trivial,
      ⟨trivial, trivial, trivial, trivial, trivial, trivial⟩, [], conns, rfl, rfl⟩
  by_cases h2 : has_cycle (heapNameOf d) (d.pairs ++ [(src, dst)]) = true
  · have hC : connect d src dst conns = (some .cycle, d) := by
      unfold connect; rw [if_neg (by simpa using h1), if_pos h2]
    simp only [hC]
    exact ⟨trivial, trivial, trivial, trivial, trivial, fun _ _ => trivial,
      ⟨trivial, trivial, trivial, trivial, trivial, trivial⟩, [], conns, rfl, rfl⟩
  by_cases h3 : (d.blocks src).name = (d.blocks dst).name
  · have hC : connect d src dst conns = (some .sameName, d) := by
      unfold connect; rw [if_neg (by simpa using h1), if_neg h2, if_pos h3]
    simp only [hC]
    exact ⟨trivial, trivial, trivial, trivial, trivial, fun _ _ => trivial,
      ⟨trivial, trivial, trivial, trivial, trivial, trivial⟩, [], conns, rfl, rfl⟩
  by_cases h4 : ((forEachOnce d.pairs).any (fun g =>
      (g ≠ src ∧ heapNameOf d g = (d.blocks src).name) ∨
      (g ≠ dst ∧ heapNameOf d g = (d.blocks dst).name))) = true
  · have hC : connect d src dst conns = (some .dupName, d) := by
      unfold connect; rw [if_neg (by simpa using h1), if_neg h2, if_neg h3, if_pos h4]
    simp only [hC]
    exact ⟨trivial, trivial, trivial, trivial, trivial, fun _ _ => trivial,
      ⟨trivial, trivial, trivial, trivial, trivial, trivial⟩, [], conns, rfl, rfl⟩
  by_cases h5 : (d.pairs.any (fun p => p.1 = src ∧ p.2 = dst)) = true
  · have hC : connect d src dst conns = (some .alreadyConnected, d) := by
      unfold connect
      rw [if_neg (by simpa using h1), if_neg h2, if_neg h3, if_neg h4, if_pos h5]
    simp only [hC]
    exact ⟨trivial, trivial, trivial, trivial, trivial, fun _ _ => trivial,
      ⟨trivial, trivial, trivial, trivial, trivial, trivial⟩, [], conns, rfl, rfl⟩
  by_cases h6 : ¬ d.pairs.isEmpty = true ∧ ¬ (d.pairs.any (fun p =>
      p.1 = src ∨ p.2 = src ∨ p.1 = dst ∨ p.2 = dst)) = true
  · have hC : connect d src dst conns = (some .notConnected, d) := by
      unfold connect
      rw [if_neg (by simpa using h1), if_neg h2, if_neg h3, if_neg h4, if_neg h5,
        if_pos h6]
    simp only [hC]
    exact ⟨trivial, trivial, trivial, trivial, trivial, fun _ _ => trivial,
      ⟨trivial, trivial, trivial, trivial, trivial, trivial⟩, [], conns, rfl, rfl⟩
  by_cases h7 : conns.isEmpty = true
  · have hC : connect d src dst conns = (some .noConnections, d) := by
      unfold connect
      rw [if_neg (by simpa using h1), if_neg h2, if_neg h3, if_neg h4, if_neg h5,
        if_neg h6, if_pos h7]
    simp only [hC]
    exact ⟨trivial, trivial, trivial, trivial, trivial, fun _ _ => trivial,
      ⟨trivial, trivial, trivial, trivial, trivial, trivial⟩, [], conns, rfl, rfl⟩
  obtain ⟨pre, rest, hsplit, hres⟩ := connectLoop_partial (d.blocks src).name
    (d.blocks src).params conns (d.blocks dst).nameMap []
  rcases hloop : connectLoop (d.blocks src).name (d.blocks src).params conns
      (d.blocks dst).nameMap [] with ⟨oe, nm, ops⟩
  rw [hloop] at hres
  cases oe with
  | none =>
      have hC : connect d src dst conns = (none, { d with
          blocks := updBlock d.blocks dst (fun b => { b with nameMap := nm }),
          watchers := d.watchers ++ [⟨src, ops, dst⟩],
          pairs := d.pairs ++ [(src, dst)] }) := by
        unfold connect
        rw [if_neg (by simpa using h1), if_neg h2, if_neg h3, if_neg h4, if_neg h5,
          if_neg h6, if_neg h7, hloop]
      rw [hC] at herr
      simp at herr
  | some e' =>
      have hC : connect d src dst conns = (some e', { d with
          blocks := updBlock d.blocks dst (fun b => { b with nameMap := nm }) }) := by
        unfold connect
        rw [if_neg (by simpa using h1), if_neg h2, if_neg h3, if_neg h4, if_neg h5,
          if_neg h6, if_neg h7, hloop]
      simp only [hC]
      refine ⟨trivial, trivial, trivial, trivial, trivial,
        fun g hg => updBlock_ne _ _ _ _ hg, ?_, ?_⟩
      · rw [updBlock_self]
        exact ⟨rfl, rfl, rfl, rfl, rfl, rfl⟩
      · refine ⟨pre, rest, hsplit, ?_⟩
        rw [updBlock_self]
        exact hres

/-- The two-block heap used by the concrete C7 scenarios: source block
`0` (params `out_a` plain, `out_b` with `allow_refs=True`) and destination
block `1`. -/
def C7dag : DagS :=
  { blocks := fun g =>
      if g = 0 then
        { name := "s", wfi := false, bstate := .ready, hasPrepared := false,
          nameMap := [], params := [("out_a", false), ("out_b", true)], hasDoc := true }
      else
        { name := "d", wfi := false, bstate := .ready, hasPrepared := false,
          nameMap := [], params := [("in_a", false), ("in_b", false)], hasDoc := true },
    pairs := [], bag := [], watchers := [], queue := [], stopped := false }

/-- Counterexample to C7 as stated: connecting `out_a→in_a, out_b→in_b`
fails on the second connection (`allow_refs=True`), yet the destination's
name map has already gained the entry for the first connection. -/
theorem connect_error_frame_cex :
    (connect C7dag 0 1 [("out_a", "in_a"), ("out_b", "in_b")]).1 = some .allowRefs ∧
    ((connect C7dag 0 1 [("out_a", "in_a"), ("out_b", "in_b")]).2.blocks 1).nameMap =
      [(("s", "out_a"), "in_a")] ∧
    (C7dag.blocks 1).nameMap = [] := by
  refine ⟨by decide, by decide, by decide⟩

/-- Witness for the amended C7 at a concrete erroring call. -/
theorem connect_error_frame_witness :
    (connect C7dag 0 1 []).1 = some .noConnections ∧
    (connect C7dag 0 1 []).2.pairs = C7dag.pairs ∧
    (connect C7dag 0 1 []).2.watchers = C7dag.watchers := by
  have h := connect_error_frame C7dag 0 1 [] .noConnections (by decide)
  exact ⟨by decide, h.1, h.2.1⟩

theorem assignOutput_queue_of_no_src (d : DagS) (s : Nat)
    (hno : ∀ w ∈ d.watchers, w.src ≠ s) (p : String) (v : Val) :
    (assignOutput d s p v).queue = d.queue := by
  unfold assignOutput
  have hgen : ∀ (ws : List Watcher) (q : List InputValues), (∀ w ∈ ws, w.src ≠ s) →
      ws.foldl (fun q w =>
        if w.src = s ∧ p ∈ w.params then
          match (d.blocks w.dst).nameMap.lookup ((d.blocks s).name, p) with
          | some inp => paramEvent1 q w.dst inp v
          | none => q
        else q) q = q := by
    intro ws
    induction ws with
    | nil => intro q _; rfl
    | cons w rest ih =>
        intro q hws
        have hw : ¬ (w.src = s ∧ p ∈ w.params) := by
          intro hcon
          exact hws w (List.mem_cons_self w rest) hcon.1
        simp only [List.foldl_cons, if_neg hw]
        exact ih q (fun w' hw' => hws w' (List.mem_cons_of_mem w hw'))
  exact hgen d.watchers d.queue hno

/-- C10. After a successful `disconnect(g)` where `s` feeds both `g`
and another block `h`, the edge `s → h` survives (so `h` stays in the
dag), yet `s` is left with no watchers at all — lines 581-586 unwatch
every watcher of every block with an edge into `g` — so assigning an
output parameter of `s` no longer enqueues any pending-update record. -/
theorem disconnect_strips_all_src_watchers (d : DagS) (s g h : Nat)
    (hsg : (s, g) ∈ d.pairs) (hsh : (s, h) ∈ d.pairs) (hhg : h ≠ g) (hsgne : s ≠ g)
    (hok : (disconnect d g).1 = none) :
    ((s, h) ∈ (disconnect d g).2.pairs) ∧
    (∀ w ∈ (disconnect d g).2.watchers, w.src ≠ s) ∧
    (∀ p v, (assignOutput ((disconnect d g).2) s p v).queue = (disconnect d g).2.queue) := by
  unfold disconnect at hok ⊢
  split at hok
  · cases hok
  · next hcond =>
      rw [if_neg hcond]
      have hwat : ∀ w ∈ (d.watchers.filter (fun w =>
          ¬ (w.src = g ∨ d.pairs.any (fun p => p.2 = g ∧ p.1 = w.src)))), w.src ≠ s := by
        intro w hw heq
        have hcond2 := (List.mem_filter.1 hw).2
        have hany : (d.pairs.any (fun p => p.2 = g ∧ p.1 = w.src)) = true := by
          rw [List.any_eq_true]
          exact ⟨(s, g), hsg, by simp [heq]⟩
        rw [decide_eq_true_iff] at hcond2
        exact hcond2 (Or.inr hany)
      refine ⟨?_, hwat, ?_⟩
      · rw [List.mem_filter]
        exact ⟨hsh, by simp [hsgne, hhg]⟩
      · intro p v
        exact assignOutput_queue_of_no_src _ s hwat p v

/-- The concrete C10 scenario: `s = 0` feeds `g = 1` and `h = 2`;
disconnecting `g` succeeds and strips all of `s`'s watchers. -/
def C10dag : DagS :=
  { blocks := fun g =>
      if g = 0 then
        { name := "s", wfi := false, bstate := .ready, hasPrepared := false,
          nameMap := [], params := [("out_x", false), ("out_y", false)], hasDoc := true }
      else if g = 1 then
        { name := "g", wfi := false, bstate := .ready, hasPrepared := false,
          nameMap := [(("s", "out_x"), "in_x")], params := [("in_x", false)], hasDoc := true }
      else
        { name := "h", wfi := false, bstate := .ready, hasPrepared := false,
          nameMap := [(("s", "out_y"), "in_y")], params := [("in_y", false)], hasDoc := true },
    pairs := [(0, 1), (0, 2)], bag := [],
    watchers := [⟨0, ["out_x"], 1⟩, ⟨0, ["out_y"], 2⟩],
    queue := [], stopped := false }

/-- Witness for C10 at the concrete scenario. -/
theorem disconnect_strips_all_src_watchers_witness :
    ((0, 2) ∈ (disconnect C10dag 1).2.pairs) ∧
    (∀ w ∈ (disconnect C10dag 1).2.watchers, w.src ≠ 0) := by
  have hmain := disconnect_strips_all_src_watchers C10dag 0 1 2 (by decide) (by decide)
    (by decide) (by decide) (by decide)
  exact ⟨hmain.1, hmain.2.1⟩

/-! ### The executor: `Dag._execute` / `Dag.execute` /
`Dag.execute_after_input` and `_BlockContext` (`_dag.py` lines 91-149 and
410-554).

`prepare()` and `execute()` are user code: a `Behavior` gives, per block
and hook, what the hook raises (if anything) and which output parameters
it assigns when it returns normally. -/

/-- The two block hooks called by the executor. -/
inductive Hook where
  | prepare
  | execute
deriving DecidableEq, Repr

/-- What a hook invocation does: return normally, or raise. -/
inductive HookOutcome where
  | ok
  | validateError
  | blockError
  | otherError
  | keyboardInterrupt
deriving DecidableEq, Repr

/-- User-block behavior: hook outcomes, output-parameter assignments made
by a normally-returning hook, and whether `item.dst.param.update(values)`
passes the params' type/constraint checks. -/
structure Behavior where
  hook : Nat → Hook → HookOutcome
  emits : Nat → Hook → List (String × Val)
  updateOk : Nat → List (String × Val) → Bool

/-- How a `Dag._execute` run can abort. -/
inductive RunError where
  /-- Models `BlockError` wrapping the `ValueError` from `param.update`
  (lines 510-514); the stopper is set first. -/
  | paramUpdate (blockName : String)
  /-- Models `BlockValidateError` propagating out of `_BlockContext.__exit__`
  (line 124): no stopper, no wrapping. -/
  | validate (block : Nat)
  /-- A plain `BlockError` from a hook: stopper set, state ERROR,
  propagated unwrapped (line 139). -/
  | blockErr (block : Nat)
  /-- Any other exception from a hook: stopper set, state ERROR, wrapped
  as `BlockError(f'Block {name}: …')` with the cause chained
  (line 142). -/
  | wrapped (block : Nat) (blockName : String)
  /-- The `AttributeError` raised by `_BlockContext.__exit__` itself on
  `KeyboardInterrupt`: line 117 reads `self.block_state`, an attribute
  the context manager does not have. -/
  | attrFault (block : Nat)
  /-- Models `BlockError('Nothing to execute')` (line 489). -/
  | nothingToExecute
deriving DecidableEq, Repr

inductive ExecResult where
  | done
  | paused (b : Nat)
  | fault (e : RunError)
  | outOfFuel
deriving DecidableEq, Repr

def RESTART : String := ":restart:"

/-- Models `is_restart = item.values.pop(_RESTART, False)` (line 507). -/
def popRestart (values : List (String × Val)) : Bool × List (String × Val) :=
  match values.lookup RESTART with
  | some v => (v.truthy, values.filter (fun kv => ¬ kv.1 = RESTART))
  | none => (false, values)

def setState (d : DagS) (b : Nat) (st : BState) : DagS :=
  { d with blocks := updBlock d.blocks b (fun bb => { bb with bstate := st }) }

def setPrepared (d : DagS) (b : Nat) : DagS :=
  { d with blocks := updBlock d.blocks b (fun bb => { bb with hasPrepared := true }) }

/-- The output assignments a hook makes, delivered in order. -/
def applyEmits (d : DagS) (b : Nat) (l : List (String × Val)) : DagS :=
  l.foldl (fun dd pv => assignOutput dd b pv.1 pv.2) d

/-- Run one hook under the context manager's error handling
(`_BlockContext.__exit__`, lines 113-149). On normal return the hook's
output assignments go through the watchers into the FIFO. On
`KeyboardInterrupt` the handler itself crashes with `AttributeError`
(line 117, `self.block_state`), so neither the INTERRUPTED state nor the
stopper is set. `BlockValidateError` sets state ERROR only; other
exceptions set state ERROR and the stopper, and non-`BlockError`s are
wrapped with the block's name. -/
def runHook (beh : Behavior) (d : DagS) (b : Nat) (k : Hook) :
    Except (RunError × DagS) DagS :=
  match beh.hook b k with
  | .ok => .ok (applyEmits d b (beh.emits b k))
  | .keyboardInterrupt => .error (.attrFault b, d)
  | .validateError => .error (.validate b, setState d b .error)
  | .blockError => .error (.blockErr b, { setState d b .error with stopped := true })
  | .otherError =>
      .error (.wrapped b (d.blocks b).name, { setState d b .error with stopped := true })

/-- Normal exit of the context manager (line 115):
`WAITING if self.block._wait_for_input else SUCCESSFUL`. -/
def exitNormal (d : DagS) (b : Nat) : DagS :=
  setState d b (if (d.blocks b).wfi then .waiting else .successful)

/-- The `with self._block_context(...)` body of `_execute`
(lines 523-541): enter (state EXECUTING), then `prepare()` only /
`execute()` only / both, then normal exit. Also returns the list of hook
invocations actually made. -/
def runCtx (beh : Behavior) (d0 : DagS) (b : Nat) (isInput isRestart : Bool) :
    Except (RunError × DagS) DagS × List (Nat × Hook) :=
  let d := setState d0 b .executing
  if isInput && !isRestart then
    match runHook beh d b .prepare with
    | .error e => (.error e, [(b, .prepare)])
    | .ok d1 => (.ok (exitNormal (setPrepared d1 b) b), [(b, .prepare)])
  else if isRestart then
    match runHook beh d b .execute with
    | .error e => (.error e, [(b, .execute)])
    | .ok d1 => (.ok (exitNormal d1 b), [(b, .execute)])
  else
    match runHook beh d b .prepare with
    | .error e => (.error e, [(b, .prepare)])
    | .ok d1 =>
        match runHook beh (setPrepared d1 b) b .execute with
        | .error e => (.error e, [(b, .prepare), (b, .execute)])
        | .ok d2 => (.ok (exitNormal d2 b), [(b, .prepare), (b, .execute)])

/-- One iteration of `_execute`'s `while self._block_queue` loop either
finishes the run or continues with a new state. Each popped record is
logged as `(dst, can_execute, is_input_block, is_restart)`. -/
inductive StepRes where
  | final (r : ExecResult) (d : DagS) (entry : Option (Nat × Bool × Bool × Bool))
      (hlog : List (Nat × Hook))
  | next (d : DagS) (canExec : Bool) (entry : Nat × Bool × Bool × Bool)
      (hlog : List (Nat × Hook))

/-- One iteration of the `_execute` loop (lines 497-552): observe the
stopper, pop the head record, pop the restart marker, apply the values
(setting the stopper and failing on a validation error), run the hooks
when execution is enabled, and pause on a non-restart input block. -/
def execStep (beh : Behavior) (d : DagS) (canExec : Bool) : StepRes :=
  match d.queue with
  | [] => .final .done d none []
  | item :: rest =>
      let ce := if d.stopped then false else canExec
      let d1 := { d with queue := rest }
      let pr := popRestart item.values
      if ¬ beh.updateOk item.dst pr.2 then
        .final (.fault (.paramUpdate (d1.blocks item.dst).name))
          { d1 with stopped := true }
          (some (item.dst, ce, (d1.blocks item.dst).wfi, pr.1)) []
      else
        let isInput := (d1.blocks item.dst).wfi
        if ce then
          match runCtx beh d1 item.dst isInput pr.1 with
          | (.error (e, d2), hlog) =>
              .final (.fault e) d2 (some (item.dst, ce, isInput, pr.1)) hlog
          | (.ok d2, hlog) =>
              if isInput && !pr.1 then
                .final (.paused item.dst) d2 (some (item.dst, ce, isInput, pr.1)) hlog
              else
                .next d2 ce (item.dst, ce, isInput, pr.1) hlog
        else
          if isInput && !pr.1 then
            .final (.paused item.dst) d1 (some (item.dst, ce, isInput, pr.1)) []
          else
            .next d1 ce (item.dst, ce, isInput, pr.1) []

/-- A complete run: results, final state, popped-record log, hook log.
The fuel only caps the iteration count of the Python `while` loop, which
may genuinely diverge for behaviors that keep emitting updates. -/
structure ExecOut where
  result : ExecResult
  dag : DagS
  popLog : List (Nat × Bool × Bool × Bool)
  hookLog : List (Nat × Hook)

def execLoop (beh : Behavior) : Nat → DagS → Bool → ExecOut
  | 0, d, _ => ⟨.outOfFuel, d, [], []⟩
  | fuel + 1, d, canExec =>
      match execStep beh d canExec with
      | .final r d' entry hlog => ⟨r, d', entry.toList, hlog⟩
      | .next d' ce' entry hlog =>
          let out := execLoop beh fuel d' ce'
          ⟨out.result, out.dag, entry :: out.popLog, hlog ++ out.hookLog⟩

/-- First-appearance deduplication (Python `set` membership semantics for
the checks that only test membership). -/
def headsOf (pairs : List (Nat × Nat)) : List Nat :=
  ((pairs.map (·.1)).filter (fun s => ¬ s ∈ pairs.map (·.2))).foldl
    (fun acc g => if g ∈ acc then acc else acc ++ [g]) []

/-- Models `Dag.execute()` (lines 438-491): clear the FIFO, seed it with the bag
(non-waiting blocks first — Python's stable sort by the boolean
`_wait_for_input` key is a stable partition) then the heads of the dag
(same order), fail on an empty queue, then run the loop with
`can_execute = True`. -/
def pyExecute (beh : Behavior) (fuel : Nat) (d : DagS) : ExecOut :=
  let bagSorted := d.bag.filter (fun b => !(d.blocks b).wfi) ++
    d.bag.filter (fun b => (d.blocks b).wfi)
  let heads := headsOf d.pairs
  let headsSorted := heads.filter (fun b => !(d.blocks b).wfi) ++
    heads.filter (fun b => (d.blocks b).wfi)
  let q := (bagSorted ++ headsSorted).map (fun b => (⟨b, []⟩ : InputValues))
  if q.isEmpty then ⟨.fault .nothingToExecute, { d with queue := [] }, [], []⟩
  else execLoop beh fuel { d with queue := q } true

/-- Models `Dag.execute_after_input(block)` (lines 410-436): only a
`wait_for_input` block may restart; the restart record is prepended to
the FIFO — which is *not* cleared — and the loop runs. -/
def executeAfterInput (beh : Behavior) (fuel : Nat) (d : DagS) (b : Nat) :
    Except String ExecOut :=
  if ¬ (d.blocks b).wfi then
    .error "A dag can only restart a paused Block"
  else
    .ok (execLoop beh fuel
      { d with queue := ⟨b, [(RESTART, .bool true)]⟩ :: d.queue } true)

/-! Frame lemmas for the executor's state operations. -/

@[simp] theorem assignOutput_blocks (d : DagS) (s : Nat) (p : String) (v : Val) :
    (assignOutput d s p v).blocks = d.blocks := rfl

@[simp] theorem assignOutput_stopped (d : DagS) (s : Nat) (p : String) (v : Val) :
    (assignOutput d s p v).stopped = d.stopped := rfl

theorem applyEmits_blocks (b : Nat) (l : List (String × Val)) :
    ∀ d : DagS, (applyEmits d b l).blocks = d.blocks := by
  induction l with
  | nil => intro d; rfl
  | cons pv rest ih =>
      intro d
      simp only [applyEmits, List.foldl_cons] at ih ⊢
      rw [ih]
      rfl

theorem applyEmits_stopped (b : Nat) (l : List (String × Val)) :
    ∀ d : DagS, (applyEmits d b l).stopped = d.stopped := by
  induction l with
  | nil => intro d; rfl
  | cons pv rest ih =>
      intro d
      simp only [applyEmits, List.foldl_cons] at ih ⊢
      rw [ih]
      rfl

theorem paramEvent1_dst_mono (queue : List InputValues) (dst : Nat) (inp : String)
    (new : Val) (d0 : Nat) (h : d0 ∈ queue.map (·.dst)) :
    d0 ∈ (paramEvent1 queue dst inp new).map (·.dst) := by
  rw [paramEvent1_dsts]
  by_cases hmem : dst ∈ queue.map (·.dst)
  · rwa [if_pos hmem]
  · rw [if_neg hmem]
    exact List.mem_append.2 (Or.inl h)

theorem assignOutput_dst_mono (d : DagS) (s : Nat) (p : String) (v : Val) (d0 : Nat)
    (h : d0 ∈ d.queue.map (·.dst)) :
    d0 ∈ (assignOutput d s p v).queue.map (·.dst) := by
  unfold assignOutput
  have hgen : ∀ (ws : List Watcher) (q : List InputValues), d0 ∈ q.map (·.dst) →
      d0 ∈ (ws.foldl (fun q w =>
        if w.src = s ∧ p ∈ w.params then
          match (d.blocks w.dst).nameMap.lookup ((d.blocks s).name, p) with
          | some inp => paramEvent1 q w.dst inp v
          | none => q
        else q) q).map (·.dst) := by
    intro ws
    induction ws with
    | nil => intro q hq; exact hq
    | cons w rest ih =>
        intro q hq
        simp only [List.foldl_cons]
        refine ih _ ?_
        by_cases hw : w.src = s ∧ p ∈ w.params
        · rw [if_pos hw]
          match (d.blocks w.dst).nameMap.lookup ((d.blocks s).name, p) with
          | some inp => exact paramEvent1_dst_mono q w.dst inp v d0 hq
          | none => exact hq
        · rwa [if_neg hw]
  exact hgen d.watchers d.queue h

theorem applyEmits_dst_mono (b : Nat) (l : List (String × Val)) :
    ∀ (d : DagS) (d0 : Nat), d0 ∈ d.queue.map (·.dst) →
      d0 ∈ (applyEmits d b l).queue.map (·.dst) := by
  induction l with
  | nil => intro d d0 h; exact h
  | cons pv rest ih =>
      intro d d0 h
      simp only [applyEmits, List.foldl_cons] at ih ⊢
      exact ih _ d0 (assignOutput_dst_mono d b pv.1 pv.2 d0 h)

@[simp] theorem setState_stopped (d : DagS) (b : Nat) (st : BState) :
    (setState d b st).stopped = d.stopped := rfl

@[simp] theorem setState_queue (d : DagS) (b : Nat) (st : BState) :
    (setState d b st).queue = d.queue := rfl

@[simp] theorem setPrepared_stopped (d : DagS) (b : Nat) :
    (setPrepared d b).stopped = d.stopped := rfl

@[simp] theorem setPrepared_queue (d : DagS) (b : Nat) :
    (setPrepared d b).queue = d.queue := rfl

theorem setState_bstate_self (d : DagS) (b : Nat) (st : BState) :
    ((setState d b st).blocks b).bstate = st := by
  simp [setState, updBlock]

theorem setState_name_self (d : DagS) (b : Nat) (st : BState) :
    ((setState d b st).blocks b).name = (d.blocks b).name := by
  simp [setState, updBlock]

theorem setState_wfi_self (d : DagS) (b : Nat) (st : BState) :
    ((setState d b st).blocks b).wfi = (d.blocks b).wfi := by
  simp [setState, updBlock]

theorem setPrepared_bstate (d : DagS) (b g : Nat) :
    ((setPrepared d b).blocks g).bstate = (d.blocks g).bstate := by
  by_cases h : g = b <;> simp [setPrepared, updBlock, h]

theorem setPrepared_name (d : DagS) (b g : Nat) :
    ((setPrepared d b).blocks g).name = (d.blocks g).name := by
  by_cases h : g = b <;> simp [setPrepared, updBlock, h]

theorem setPrepared_wfi (d : DagS) (b g : Nat) :
    ((setPrepared d b).blocks g).wfi = (d.blocks g).wfi := by
  by_cases h : g = b <;> simp [setPrepared, updBlock, h]

theorem runHook_ok (beh : Behavior) (d : DagS) (b : Nat) (k : Hook) (d' : DagS)
    (h : runHook beh d b k = .ok d') :
    d'.blocks = d.blocks ∧ d'.stopped = d.stopped ∧
    (∀ d0 ∈ d.queue.map (·.dst), d0 ∈ d'.queue.map (·.dst)) := by
  unfold runHook at h
  match hk : beh.hook b k with
  | .ok =>
      rw [hk] at h
      cases h
      exact ⟨applyEmits_blocks b _ d, applyEmits_stopped b _ d,
        fun d0 h0 => applyEmits_dst_mono b _ d d0 h0⟩
  | .keyboardInterrupt => rw [hk] at h; cases h
  | .validateError => rw [hk] at h; cases h
  | .blockError => rw [hk] at h; cases h
  | .otherError => rw [hk] at h; cases h

theorem runHook_error (beh : Behavior) (d : DagS) (b : Nat) (k : Hook) (e : RunError)
    (d' : DagS) (h : runHook beh d b k = .error (e, d')) :
    (e = .attrFault b ∧ d' = d) ∨
    (e = .validate b ∧ d' = setState d b .error) ∨
    (e = .blockErr b ∧ d' = { setState d b .error with stopped := true }) ∨
    (e = .wrapped b (d.blocks b).name ∧ d' = { setState d b .error with stopped := true }) := by
  unfold runHook at h
  match hk : beh.hook b k with
  | .ok => rw [hk] at h; cases h
  | .keyboardInterrupt =>
      rw [hk] at h
      simp only [Except.error.injEq, Prod.mk.injEq] at h
      exact Or.inl ⟨h.1.symm, h.2.symm⟩
  | .validateError =>
      rw [hk] at h
      simp only [Except.error.injEq, Prod.mk.injEq] at h
      exact Or.inr (Or.inl ⟨h.1.symm, h.2.symm⟩)
  | .blockError =>
      rw [hk] at h
      simp only [Except.error.injEq, Prod.mk.injEq] at h
      exact Or.inr (Or.inr (Or.inl ⟨h.1.symm, h.2.symm⟩))
  | .otherError =>
      rw [hk] at h
      simp only [Except.error.injEq, Prod.mk.injEq] at h
      exact Or.inr (Or.inr (Or.inr ⟨h.1.symm, h.2.symm⟩))

theorem runCtx_ok (beh : Behavior) (d0 : DagS) (b : Nat) (i r : Bool) (d' : DagS)
    (hlog : List (Nat × Hook)) (h : runCtx beh d0 b i r = (.ok d', hlog)) :
    hlog = (if i && !r then [(b, Hook.prepare)] else if r then [(b, Hook.execute)]
      else [(b, Hook.prepare), (b, Hook.execute)]) ∧
    d'.stopped = d0.stopped ∧
    ((d'.blocks b).bstate = if (d0.blocks b).wfi then BState.waiting else BState.successful) ∧
    (d'.blocks b).wfi = (d0.blocks b).wfi ∧
    (∀ g ∈ d0.queue.map (·.dst), g ∈ d'.queue.map (·.dst)) := by
  unfold runCtx at h
  have hwfi0 : ((setState d0 b .executing).blocks b).wfi = (d0.blocks b).wfi :=
    setState_wfi_self d0 b .executing
  by_cases hc1 : (i && !r) = true
  · rw [if_pos hc1] at h
    match hrun : runHook beh (setState d0 b .executing) b .prepare with
    | .error e => rw [hrun] at h; cases h
    | .ok d1 =>
        rw [hrun] at h
        obtain ⟨hbl, hst, hq⟩ := runHook_ok _ _ _ _ _ hrun
        simp only [Prod.mk.injEq, Except.ok.injEq] at h
        obtain ⟨hd', hl⟩ := h
        subst hd' hl
        rw [if_pos hc1]
        have hwfi1 : ((setPrepared d1 b).blocks b).wfi = (d0.blocks b).wfi := by
          rw [setPrepared_wfi, hbl, hwfi0]
        refine ⟨rfl, ?_, ?_, ?_, ?_⟩
        · simp only [exitNormal, setState_stopped, setPrepared_stopped]
          rw [hst]
          rfl
        · unfold exitNormal
          rw [setState_bstate_self, hwfi1]
        · unfold exitNormal
          rw [setState_wfi_self, hwfi1]
        · intro g hg
          have h1 : g ∈ (setState d0 b .executing).queue.map (·.dst) := hg
          have h2 := hq g h1
          exact h2
  · rw [if_neg hc1] at h
    by_cases hc2 : r = true
    · rw [if_pos hc2] at h
      match hrun : runHook beh (setState d0 b .executing) b .execute with
      | .error e => rw [hrun] at h; cases h
      | .ok d1 =>
          rw [hrun] at h
          obtain ⟨hbl, hst, hq⟩ := runHook_ok _ _ _ _ _ hrun
          simp only [Prod.mk.injEq, Except.ok.injEq] at h
          obtain ⟨hd', hl⟩ := h
          subst hd' hl
          rw [if_neg hc1, if_pos hc2]
          have hwfi1 : (d1.blocks b).wfi = (d0.blocks b).wfi := by
            rw [hbl, hwfi0]
          refine ⟨rfl, ?_, ?_, ?_, ?_⟩
          · simp only [exitNormal, setState_stopped]
            rw [hst]
            rfl
          · unfold exitNormal
            rw [setState_bstate_self, hwfi1]
          · unfold exitNormal
            rw [setState_wfi_self, hwfi1]
          · exact fun g hg => hq g hg
    · rw [if_neg hc2] at h
      match hrun : runHook beh (setState d0 b .executing) b .prepare with
      | .error e => rw [hrun] at h; cases h
      | .ok d1 =>
          rw [hrun] at h
          simp only [Prod.mk.injEq, Except.ok.injEq] at h
          obtain ⟨hbl, hst, hq⟩ := runHook_ok _ _ _ _ _ hrun
          match hrun2 : runHook beh (setPrepared d1 b) b .execute with
          | .error e => rw [hrun2] at h; simp at h
          | .ok d2 =>
              rw [hrun2] at h
              obtain ⟨hbl2, hst2, hq2⟩ := runHook_ok _ _ _ _ _ hrun2
              simp only [Prod.mk.injEq, Except.ok.injEq] at h
              obtain ⟨hd', hl⟩ := h
              subst hd' hl
              rw [if_neg hc1, if_neg hc2]
              have hwfi2 : (d2.blocks b).wfi = (d0.blocks b).wfi := by
                rw [hbl2, setPrepared_wfi, hbl, hwfi0]
              refine ⟨rfl, ?_, ?_, ?_, ?_⟩
              · simp only [exitNormal, setState_stopped]
                rw [hst2, setPrepared_stopped, hst]
                rfl
              · unfold exitNormal
                rw [setState_bstate_self, hwfi2]
              · unfold exitNormal
                rw [setState_wfi_self, hwfi2]
              · intro g hg
                exact hq2 g (hq g hg)

theorem runCtx_error (beh : Behavior) (d0 : DagS) (b : Nat) (i r : Bool) (e : RunError)
    (d' : DagS) (hlog : List (Nat × Hook)) (h : runCtx beh d0 b i r = (.error (e, d'), hlog)) :
    (e = .attrFault b ∧ (d'.blocks b).bstate = .executing ∧ d'.stopped = d0.stopped) ∨
    (e = .validate b ∧ (d'.blocks b).bstate = .error ∧ d'.stopped = d0.stopped) ∨
    (e = .blockErr b ∧ (d'.blocks b).bstate = .error ∧ d'.stopped = true) ∨
    (e = .wrapped b (d0.blocks b).name ∧ (d'.blocks b).bstate = .error ∧
      d'.stopped = true) := by
  unfold runCtx at h
  have hmain : ∀ (dmid : DagS) (k : Hook),
      (dmid.blocks b).bstate = .executing → (dmid.blocks b).name = (d0.blocks b).name →
      dmid.stopped = d0.stopped →
      runHook beh dmid b k = .error (e, d') →
      (e = .attrFault b ∧ (d'.blocks b).bstate = .executing ∧ d'.stopped = d0.stopped) ∨
      (e = .validate b ∧ (d'.blocks b).bstate = .error ∧ d'.stopped = d0.stopped) ∨
      (e = .blockErr b ∧ (d'.blocks b).bstate = .error ∧ d'.stopped = true) ∨
      (e = .wrapped b (d0.blocks b).name ∧ (d'.blocks b).bstate = .error ∧
        d'.stopped = true) := by
    intro dmid k hex hnm hstm hrun
    rcases runHook_error _ _ _ _ _ _ hrun with ⟨he, hd⟩ | ⟨he, hd⟩ | ⟨he, hd⟩ | ⟨he, hd⟩
    · subst hd
      exact Or.inl ⟨he, hex, hstm⟩
    · subst hd
      exact Or.inr (Or.inl ⟨he, setState_bstate_self dmid b .error, by
        rw [setState_stopped]; exact hstm⟩)
    · subst hd
      exact Or.inr (Or.inr (Or.inl ⟨he, setState_bstate_self dmid b .error, rfl⟩))
    · subst hd
      refine Or.inr (Or.inr (Or.inr ⟨by rw [he, hnm], setState_bstate_self dmid b .error,
        rfl⟩))
  have hex0 : ((setState d0 b .executing).blocks b).bstate = .executing :=
    setState_bstate_self d0 b .executing
  have hnm0 : ((setState d0 b .executing).blocks b).name = (d0.blocks b).name :=
    setState_name_self d0 b .executing
  by_cases hc1 : (i && !r) = true
  · rw [if_pos hc1] at h
    match hrun : runHook beh (setState d0 b .executing) b .prepare with
    | .error ed =>
        rw [hrun] at h
        simp only [Prod.mk.injEq, Except.error.injEq] at h
        obtain ⟨hed, -⟩ := h
        exact hmain _ .prepare hex0 hnm0 rfl (by rw [hrun, hed])
    | .ok d1 => rw [hrun] at h; simp at h
  · rw [if_neg hc1] at h
    by_cases hc2 : r = true
    · rw [if_pos hc2] at h
      match hrun : runHook beh (setState d0 b .executing) b .execute with
      | .error ed =>
          rw [hrun] at h
          simp only [Prod.mk.injEq, Except.error.injEq] at h
          obtain ⟨hed, -⟩ := h
          exact hmain _ .execute hex0 hnm0 rfl (by rw [hrun, hed])
      | .ok d1 => rw [hrun] at h; simp at h
    · rw [if_neg hc2] at h
      match hrun : runHook beh (setState d0 b .executing) b .prepare with
      | .error ed =>
          rw [hrun] at h
          simp only [Prod.mk.injEq, Except.error.injEq] at h
          obtain ⟨hed, -⟩ := h
          exact hmain _ .prepare hex0 hnm0 rfl (by rw [hrun, hed])
      | .ok d1 =>
          rw [hrun] at h
          simp only at h
          obtain ⟨hbl, hst, -⟩ := runHook_ok _ _ _ _ _ hrun
          match hrun2 : runHook beh (setPrepared d1 b) b .execute with
          | .error ed =>
              rw [hrun2] at h
              simp only [Prod.mk.injEq, Except.error.injEq] at h
              obtain ⟨hed, -⟩ := h
              refine hmain _ .execute ?_ ?_ ?_ (by rw [hrun2, hed])
              · rw [setPrepared_bstate, hbl, hex0]
              · rw [setPrepared_name, hbl, hnm0]
              · rw [setPrepared_stopped, hst]
                rfl
          | .ok d2 => rw [hrun2] at h; simp at h

/-- The hook calls `_execute` makes for one popped record
`(dst, can_execute, is_input_block, is_restart)`: none when execution is
disabled, `prepare` only on a fresh input block, `execute` only on a
restart, both otherwise (lines 522-541). -/
def expectedHooks (e : Nat × Bool × Bool × Bool) : List (Nat × Hook) :=
  if !e.2.1 then []
  else if e.2.2.1 && !e.2.2.2 then [(e.1, Hook.prepare)]
  else if e.2.2.2 then [(e.1, Hook.execute)]
  else [(e.1, Hook.prepare), (e.1, Hook.execute)]

theorem mem_map_dst {q : List InputValues} {g : Nat}
    (h : g ∈ q.map (·.dst)) : ∃ iv ∈ q, iv.dst = g := by
  obtain ⟨iv, hiv, hdst⟩ := List.mem_map.1 h
  exact ⟨iv, hiv, hdst⟩

/-- Complete case analysis of one `_execute` loop iteration. -/
theorem execStep_cases (beh : Behavior) (d : DagS) (ce : Bool) :
    (d.queue = [] ∧ execStep beh d ce = .final .done d none []) ∨
    (∃ b vals rest cx d' hlog,
      d.queue = ⟨b, vals⟩ :: rest ∧ cx = (if d.stopped then false else ce) ∧
      execStep beh d ce = .final (.paused b) d' (some (b, cx, true, false)) hlog ∧
      hlog = expectedHooks (b, cx, true, false) ∧
      (d'.blocks b).wfi = true ∧ d'.stopped = d.stopped ∧
      (cx = true → (d'.blocks b).bstate = .waiting) ∧
      (∀ iv ∈ rest, ∃ iv' ∈ d'.queue, iv'.dst = iv.dst)) ∨
    (∃ e d' entry hlog,
      execStep beh d ce = .final (.fault e) d' entry hlog ∧
      ((∃ nm, e = .paramUpdate nm ∧ d'.stopped = true) ∨
       (∃ bb, e = .validate bb ∧ d'.stopped = d.stopped ∧ (d'.blocks bb).bstate = .error) ∨
       (∃ bb, e = .blockErr bb ∧ d'.stopped = true ∧ (d'.blocks bb).bstate = .error) ∨
       (∃ bb, e = .wrapped bb (d.blocks bb).name ∧ d'.stopped = true ∧
         (d'.blocks bb).bstate = .error) ∨
       (∃ bb, e = .attrFault bb ∧ d'.stopped = d.stopped ∧
         (d'.blocks bb).bstate = .executing))) ∨
    (∃ d' cx entry hlog,
      execStep beh d ce = .next d' cx entry hlog ∧
      cx = (if d.stopped then false else ce) ∧
      hlog = expectedHooks entry ∧ d'.stopped = d.stopped) := by
  match hq : d.queue with
  | [] =>
      refine Or.inl ⟨rfl, ?_⟩
      unfold execStep
      rw [hq]
  | item :: rest =>
      by_cases hup : beh.updateOk item.dst (popRestart item.values).2 = true
      · by_cases hce : (if d.stopped = true then false else ce) = true
        · -- execution enabled: run the context
          match hctx : runCtx beh { d with queue := rest } item.dst
              (d.blocks item.dst).wfi (popRestart item.values).1 with
          | (.error (e2, d2), hlog) =>
              have hC : execStep beh d ce = .final (.fault e2) d2
                  (some (item.dst, (if d.stopped then false else ce),
                    (d.blocks item.dst).wfi, (popRestart item.values).1)) hlog := by
                unfold execStep
                rw [hq]
                simp only
                rw [if_neg (by simpa using hup), if_pos hce, hctx]
              rcases runCtx_error _ _ _ _ _ _ _ _ hctx with
                ⟨he, hbs, hst⟩ | ⟨he, hbs, hst⟩ | ⟨he, hbs, hst⟩ | ⟨he, hbs, hst⟩
              · exact Or.inr (Or.inr (Or.inl ⟨e2, d2, _, hlog, hC, Or.inr (Or.inr
                  (Or.inr (Or.inr ⟨item.dst, he, by simpa using hst, hbs⟩)))⟩))
              · exact Or.inr (Or.inr (Or.inl ⟨e2, d2, _, hlog, hC, Or.inr (Or.inl
                  ⟨item.dst, he, by simpa using hst, hbs⟩)⟩))
              · exact Or.inr (Or.inr (Or.inl ⟨e2, d2, _, hlog, hC, Or.inr (Or.inr
                  (Or.inl ⟨item.dst, he, hst, hbs⟩))⟩))
              · exact Or.inr (Or.inr (Or.inl ⟨e2, d2, _, hlog, hC, Or.inr (Or.inr
                  (Or.inr (Or.inl ⟨item.dst, by simpa using he, hst, hbs⟩)))⟩))
          | (.ok d2, hlog) =>
              obtain ⟨hl, hst, hbs, hwfi, hqm⟩ := runCtx_ok _ _ _ _ _ _ _ hctx
              by_cases hpause : ((d.blocks item.dst).wfi && !(popRestart item.values).1) = true
              · have hC : execStep beh d ce = .final (.paused item.dst) d2
                    (some (item.dst, (if d.stopped then false else ce),
                      (d.blocks item.dst).wfi, (popRestart item.values).1)) hlog := by
                  unfold execStep
                  rw [hq]
                  simp only
                  rw [if_neg (by simpa using hup), if_pos hce, hctx]
                  simp only
                  rw [if_pos hpause]
                have hand := hpause
                rw [Bool.and_eq_true] at hand
                have hwfi0 : (d.blocks item.dst).wfi = true := hand.1
                have hres0 : (popRestart item.values).1 = false := by
                  simpa using hand.2
                refine Or.inr (Or.inl ⟨item.dst, item.values, rest,
                  (if d.stopped then false else ce), d2, hlog, rfl, rfl,
                  ?_, ?_, ?_, ?_, ?_, ?_⟩)
                · rw [hC, hwfi0, hres0]
                · rw [hl]
                  unfold expectedHooks
                  simp [hce, hwfi0, hres0]
                · rw [hwfi]
                  simpa using hwfi0
                · rw [hst]
                · intro _
                  rw [hbs]
                  simp [hwfi0]
                · intro iv hiv
                  have h1 : iv.dst ∈ (List.map (fun x => x.dst)
                      ({ d with queue := rest } : DagS).queue) :=
                    List.mem_map.2 ⟨iv, hiv, rfl⟩
                  exact mem_map_dst (hqm iv.dst h1)
              · have hC : execStep beh d ce = .next d2 (if d.stopped then false else ce)
                    (item.dst, (if d.stopped then false else ce),
                      (d.blocks item.dst).wfi, (popRestart item.values).1) hlog := by
                  unfold execStep
                  rw [hq]
                  simp only
                  rw [if_neg (by simpa using hup), if_pos hce, hctx]
                  simp only
                  rw [if_neg hpause]
                refine Or.inr (Or.inr (Or.inr ⟨d2, _, _, hlog, hC, rfl, ?_, ?_⟩))
                · rw [hl]
                  unfold expectedHooks
                  simp only [hce]
                  simp
                · rw [hst]
        · -- execution disabled
          by_cases hpause : ((d.blocks item.dst).wfi && !(popRestart item.values).1) = true
          · have hC : execStep beh d ce = .final (.paused item.dst) { d with queue := rest }
                (some (item.dst, (if d.stopped then false else ce),
                  (d.blocks item.dst).wfi, (popRestart item.values).1)) [] := by
              unfold execStep
              rw [hq]
              simp only
              rw [if_neg (by simpa using hup), if_neg hce, if_pos hpause]
            have hand := hpause
            rw [Bool.and_eq_true] at hand
            have hwfi0 : (d.blocks item.dst).wfi = true := hand.1
            have hres0 : (popRestart item.values).1 = false := by
              simpa using hand.2
            have hcef : (if d.stopped = true then false else ce) = false := by
              simpa using hce
            refine Or.inr (Or.inl ⟨item.dst, item.values, rest,
              (if d.stopped then false else ce), { d with queue := rest }, [],
              rfl, rfl, ?_, ?_, ?_, rfl, ?_, ?_⟩)
            · rw [hC, hwfi0, hres0]
            · rw [hcef]
              simp [expectedHooks]
            · simpa using hwfi0
            · intro hcon
              rw [hcef] at hcon
              cases hcon
            · intro iv hiv
              exact ⟨iv, hiv, rfl⟩
          · have hC : execStep beh d ce = .next { d with queue := rest }
                (if d.stopped then false else ce)
                (item.dst, (if d.stopped then false else ce),
                  (d.blocks item.dst).wfi, (popRestart item.values).1) [] := by
              unfold execStep
              rw [hq]
              simp only
              rw [if_neg (by simpa using hup), if_neg hce, if_neg hpause]
            refine Or.inr (Or.inr (Or.inr ⟨_, _, _, [], hC, rfl, ?_, rfl⟩))
            unfold expectedHooks
            have hcef : (if d.stopped = true then false else ce) = false := by
              simpa using hce
            rw [hcef]
            simp
      · -- param.update raised ValueError
        have hC : execStep beh d ce = .final
            (.fault (.paramUpdate (d.blocks item.dst).name))
            { d with queue := rest, stopped := true }
            (some (item.dst, (if d.stopped then false else ce),
              (d.blocks item.dst).wfi, (popRestart item.values).1)) [] := by
          unfold execStep
          rw [hq]
          simp only
          rw [if_pos (by simpa using hup)]
        exact Or.inr (Or.inr (Or.inl ⟨_, _, _, [], hC,
          Or.inl ⟨(d.blocks item.dst).name, rfl, rfl⟩⟩))

theorem execLoop_hooks (beh : Behavior) :
    ∀ (fuel : Nat) (d : DagS) (ce : Bool),
      ((execLoop beh fuel d ce).result = .done ∨
        (∃ b, (execLoop beh fuel d ce).result = .paused b)) →
      (execLoop beh fuel d ce).hookLog =
        ((execLoop beh fuel d ce).popLog).flatMap expectedHooks := by
  intro fuel
  induction fuel with
  | zero =>
      intro d ce hres
      rcases hres with h | ⟨b, h⟩ <;> simp [execLoop] at h
  | succ fuel ih =>
      intro d ce hres
      rcases execStep_cases beh d ce with
        ⟨hq, hC⟩ | ⟨b, vals, rest, cx, d', hlog, hq, hcx, hC, hhl, -, -, -, -⟩ |
        ⟨e, d', entry, hlog, hC, -⟩ | ⟨d', cx, entry, hlog, hC, hcx, hhl, hst⟩
      · unfold execLoop
        rw [hC]
        simp
      · unfold execLoop
        rw [hC]
        simp only [Option.toList]
        simp [hhl]
      · unfold execLoop at hres
        rw [hC] at hres
        rcases hres with h | ⟨b, h⟩ <;> simp at h
      · unfold execLoop at hres ⊢
        rw [hC] at hres ⊢
        simp only at hres ⊢
        have hres' : (execLoop beh fuel d' cx).result = .done ∨
            ∃ b, (execLoop beh fuel d' cx).result = .paused b := hres
        have hrec := ih d' cx hres'
        simp [hhl, hrec]

theorem execLoop_fault_inv (beh : Behavior) :
    ∀ (fuel : Nat) (d : DagS) (ce : Bool) (e : RunError),
      (execLoop beh fuel d ce).result = .fault e →
      ((∃ nm, e = .paramUpdate nm ∧ (execLoop beh fuel d ce).dag.stopped = true) ∨
       (∃ bb, e = .validate bb ∧ (execLoop beh fuel d ce).dag.stopped = d.stopped ∧
         ((execLoop beh fuel d ce).dag.blocks bb).bstate = .error) ∨
       (∃ bb, e = .blockErr bb ∧ (execLoop beh fuel d ce).dag.stopped = true ∧
         ((execLoop beh fuel d ce).dag.blocks bb).bstate = .error) ∨
       (∃ bb nm, e = .wrapped bb nm ∧ (execLoop beh fuel d ce).dag.stopped = true ∧
         ((execLoop beh fuel d ce).dag.blocks bb).bstate = .error) ∨
       (∃ bb, e = .attrFault bb ∧ (execLoop beh fuel d ce).dag.stopped = d.stopped ∧
         ((execLoop beh fuel d ce).dag.blocks bb).bstate = .executing)) := by
  intro fuel
  induction fuel with
  | zero =>
      intro d ce e h
      simp [execLoop] at h
  | succ fuel ih =>
      intro d ce e h
      rcases execStep_cases beh d ce with
        ⟨hq, hC⟩ | ⟨b, vals, rest, cx, d', hlog, hq, hcx, hC, -, -, -, -, -⟩ |
        ⟨e', d', entry, hlog, hC, hfacts⟩ | ⟨d', cx, entry, hlog, hC, hcx, hhl, hst⟩
      · unfold execLoop at h
        rw [hC] at h
        simp at h
      · unfold execLoop at h
        rw [hC] at h
        simp at h
      · unfold execLoop at h ⊢
        rw [hC] at h ⊢
        simp only at h ⊢
        have he : e' = e := by
          simpa using h
        subst he
        rcases hfacts with h1 | h2 | h3 | ⟨bb, heq, hs, hb⟩ | h5
        · exact Or.inl h1
        · exact Or.inr (Or.inl h2)
        · exact Or.inr (Or.inr (Or.inl h3))
        · exact Or.inr (Or.inr (Or.inr (Or.inl ⟨bb, _, heq, hs, hb⟩)))
        · exact Or.inr (Or.inr (Or.inr (Or.inr h5)))
      · unfold execLoop at h ⊢
        rw [hC] at h ⊢
        simp only at h ⊢
        have hrec := ih d' cx e h
        rw [hst] at hrec
        exact hrec

theorem execLoop_paused_inv (beh : Behavior) :
    ∀ (fuel : Nat) (d : DagS) (b : Nat),
      d.stopped = false →
      (execLoop beh fuel d true).result = .paused b →
      ((execLoop beh fuel d true).dag.blocks b).wfi = true ∧
      ((execLoop beh fuel d true).dag.blocks b).bstate = .waiting ∧
      (execLoop beh fuel d true).dag.stopped = false := by
  intro fuel
  induction fuel with
  | zero =>
      intro d b hstop h
      simp [execLoop] at h
  | succ fuel ih =>
      intro d b hstop h
      rcases execStep_cases beh d true with
        ⟨hq, hC⟩ | ⟨b', vals, rest, cx, d', hlog, hq, hcx, hC, -, hwfi, hst, hbs, -⟩ |
        ⟨e, d', entry, hlog, hC, -⟩ | ⟨d', cx, entry, hlog, hC, hcx, hhl, hst⟩
      · unfold execLoop at h
        rw [hC] at h
        simp at h
      · unfold execLoop at h ⊢
        rw [hC] at h ⊢
        simp only at h ⊢
        have hb : b' = b := by simpa using h
        subst hb
        have hcx' : cx = true := by simp [hcx, hstop]
        exact ⟨hwfi, hbs hcx', by rw [hst, hstop]⟩
      · unfold execLoop at h
        rw [hC] at h
        simp at h
      · unfold execLoop at h ⊢
        rw [hC] at h ⊢
        simp only at h ⊢
        have hcx' : cx = true := by simp [hcx, hstop]
        subst hcx'
        exact ih d' b (by rw [hst, hstop]) h

/-! Concrete behaviors and dags used as inputs to the executor theorems. -/

/-- Hooks that always return normally, assign no output params, and whose
input-parameter updates always pass validation. -/
def okBeh : Behavior := ⟨fun _ _ => .ok, fun _ _ => [], fun _ _ => true⟩

/-- A behavior whose input-parameter updates raise `ValueError`
(a failed type/constraint check in `item.dst.param.update`). -/
def badUpdBeh : Behavior := ⟨fun _ _ => .ok, fun _ _ => [], fun _ _ => false⟩

/-- A behavior whose hooks raise `BlockValidateError`. -/
def valBeh : Behavior := ⟨fun _ _ => .validateError, fun _ _ => [], fun _ _ => true⟩

/-- A behavior whose hooks raise `KeyboardInterrupt`. -/
def kbBeh : Behavior := ⟨fun _ _ => .keyboardInterrupt, fun _ _ => [], fun _ _ => true⟩

/-- A fresh block as `Dag.connect` leaves it: state READY, nothing prepared. -/
def plainBlock (nm : String) (w : Bool) : BlockS :=
  ⟨nm, w, .ready, false, [], [], false⟩

/-- Two non-input blocks with records 0 and 1 pending. -/
def C3dag : DagS := ⟨fun _ => plainBlock "g" false, [], [], [], [⟨0, []⟩, ⟨1, []⟩], false⟩

/-- An input block with a pending record; stopper clear. -/
def C2dag : DagS := ⟨fun _ => plainBlock "g" true, [], [], [], [⟨0, []⟩], false⟩

/-- An input block with a pending record; stopper already set. -/
def C2cexDag : DagS := ⟨fun _ => plainBlock "g" true, [], [], [], [⟨0, []⟩], true⟩

/-- A non-input block named b0 with a pending record; stopper clear. -/
def C4dag : DagS := ⟨fun _ => plainBlock "b0" false, [], [], [], [⟨0, []⟩], false⟩

/-- A non-input block named b1 with a pending record; stopper clear. -/
def C4bdag : DagS := ⟨fun _ => plainBlock "b1" false, [], [], [], [⟨0, []⟩], false⟩

/-- A non-input block named b2 with a pending record; stopper clear. -/
def C9dag : DagS := ⟨fun _ => plainBlock "b2" false, [], [], [], [⟨0, []⟩], false⟩

/-- C3. For every record popped by the execution loop the hooks invoked on the
destination block are exactly: none, when the stopper had disabled execution;
otherwise prepare() only when the destination waits for input and the record is
not a restart, execute() only when the record is a restart, and prepare()
followed by execute() in every other case — stated for runs that finish or
pause, so that no record's hook sequence is cut short by a fault. -/
theorem hook_invocation_discipline (beh : Behavior) (fuel : Nat) (d : DagS)
    (ce : Bool)
    (hres : (execLoop beh fuel d ce).result = .done ∨
        ∃ b, (execLoop beh fuel d ce).result = .paused b) :
    (execLoop beh fuel d ce).hookLog =
      ((execLoop beh fuel d ce).popLog).flatMap (fun ent =>
        if ent.2.1 = false then []
        else if ent.2.2.1 = true ∧ ent.2.2.2 = false then [(ent.1, Hook.prepare)]
        else if ent.2.2.2 = true then [(ent.1, Hook.execute)]
        else [(ent.1, Hook.prepare), (ent.1, Hook.execute)]) := by
  rw [execLoop_hooks beh fuel d ce hres]
  congr 1
  funext ent
  obtain ⟨b, c, i, r⟩ := ent
  unfold expectedHooks
  cases c <;> cases i <;> cases r <;> simp

theorem hook_invocation_discipline_witness :
    (execLoop okBeh 3 C3dag true).hookLog =
      [(0, Hook.prepare), (0, Hook.execute), (1, Hook.prepare), (1, Hook.execute)] ∧
    (execLoop okBeh 3 C3dag true).hookLog =
      ((execLoop okBeh 3 C3dag true).popLog).flatMap (fun ent =>
        if ent.2.1 = false then []
        else if ent.2.2.1 = true ∧ ent.2.2.2 = false then [(ent.1, Hook.prepare)]
        else if ent.2.2.2 = true then [(ent.1, Hook.execute)]
        else [(ent.1, Hook.prepare), (ent.1, Hook.execute)]) :=
  ⟨rfl, hook_invocation_discipline okBeh 3 C3dag true (Or.inl rfl)⟩

/-- C2 (amended). If the stopper is clear when the loop starts, a paused
return leaves the paused block with wait_for_input true, state WAITING, and
the stopper still clear; moreover at any pausing iteration every record that
was still pending survives into the returned FIFO (merged by destination).
When the stopper is already set the loop still returns the input block but
skips the execution context, so the block keeps its previous state — the
claim's unconditional WAITING fails (see the counterexample). -/
theorem execute_pause_state (beh : Behavior) (fuel : Nat) (d : DagS) (b : Nat)
    (hstop : d.stopped = false)
    (hres : (execLoop beh fuel d true).result = .paused b) :
    ((execLoop beh fuel d true).dag.blocks b).wfi = true ∧
    ((execLoop beh fuel d true).dag.blocks b).bstate = .waiting ∧
    (execLoop beh fuel d true).dag.stopped = false ∧
    (∀ (d₀ : DagS) (cx : Bool) (b' : Nat) (d' : DagS)
        (ent : Option (Nat × Bool × Bool × Bool)) (hlog : List (Nat × Hook)),
      execStep beh d₀ cx = .final (.paused b') d' ent hlog →
      ∀ iv ∈ d₀.queue.tail, ∃ iv' ∈ d'.queue, iv'.dst = iv.dst) := by
  obtain ⟨h1, h2, h3⟩ := execLoop_paused_inv beh fuel d b hstop hres
  refine ⟨h1, h2, h3, ?_⟩
  intro d₀ cx b' d' ent hlog hstep iv hiv
  rcases execStep_cases beh d₀ cx with
    ⟨hq, hC⟩ | ⟨b2, vals, rest, cx2, d2, hlog2, hq, hcx, hC, -, -, -, -, hrest⟩ |
    ⟨e, d2, ent2, hlog2, hC, -⟩ | ⟨d2, cx2, ent2, hlog2, hC, -, -, -⟩
  · rw [hstep] at hC
    simp only [StepRes.final.injEq] at hC
    exact absurd hC.1 (by simp)
  · rw [hstep] at hC
    simp only [StepRes.final.injEq] at hC
    obtain ⟨-, hd, -, -⟩ := hC
    have hiv' : iv ∈ rest := by
      rw [hq] at hiv
      exact hiv
    obtain ⟨iv', hm, he⟩ := hrest iv hiv'
    rw [hd]
    exact ⟨iv', hm, he⟩
  · rw [hstep] at hC
    simp only [StepRes.final.injEq] at hC
    exact absurd hC.1 (by simp)
  · rw [hstep] at hC
    exact absurd hC (by simp)

theorem execute_pause_state_witness :
    C2dag.stopped = false ∧
    (execLoop okBeh 1 C2dag true).result = .paused 0 ∧
    ((execLoop okBeh 1 C2dag true).dag.blocks 0).bstate = .waiting :=
  ⟨rfl, rfl, (execute_pause_state okBeh 1 C2dag 0 rfl rfl).2.1⟩

theorem execute_pause_state_cex :
    (execLoop okBeh 1 C2cexDag true).result = .paused 0 ∧
    ((execLoop okBeh 1 C2cexDag true).dag.blocks 0).bstate = .ready ∧
    ¬ ((execLoop okBeh 1 C2cexDag true).dag.blocks 0).bstate = .waiting :=
  ⟨rfl, rfl, by decide⟩

/-- C4 (amended). A `BlockValidateError` from prepare()/execute() leaves the
stopper unchanged and marks the block ERROR; a plain `BlockError` or any other
hook exception sets the stopper and marks the block ERROR, non-BlockErrors
being re-raised wrapped and tagged with the faulting block's name; but —
contrary to the claim — a parameter assignment that fails its type/constraint
check also sets the stopper before raising (lines 512-513). The
KeyboardInterrupt path crashes in the handler, leaving the stopper unchanged
and the block EXECUTING. -/
theorem fault_flag_discipline (beh : Behavior) (fuel : Nat) (d : DagS)
    (ce : Bool) (e : RunError)
    (h : (execLoop beh fuel d ce).result = .fault e) :
    ((∃ nm, e = .paramUpdate nm ∧ (execLoop beh fuel d ce).dag.stopped = true) ∨
     (∃ bb, e = .validate bb ∧ (execLoop beh fuel d ce).dag.stopped = d.stopped ∧
       ((execLoop beh fuel d ce).dag.blocks bb).bstate = .error) ∨
     (∃ bb, e = .blockErr bb ∧ (execLoop beh fuel d ce).dag.stopped = true ∧
       ((execLoop beh fuel d ce).dag.blocks bb).bstate = .error) ∨
     (∃ bb nm, e = .wrapped bb nm ∧ (execLoop beh fuel d ce).dag.stopped = true ∧
       ((execLoop beh fuel d ce).dag.blocks bb).bstate = .error) ∨
     (∃ bb, e = .attrFault bb ∧ (execLoop beh fuel d ce).dag.stopped = d.stopped ∧
       ((execLoop beh fuel d ce).dag.blocks bb).bstate = .executing)) ∧
    (∀ (d₀ : DagS) (cx : Bool) (bb : Nat) (nm : String) (d' : DagS)
        (ent : Option (Nat × Bool × Bool × Bool)) (hlog : List (Nat × Hook)),
      execStep beh d₀ cx = .final (.fault (.wrapped bb nm)) d' ent hlog →
      nm = (d₀.blocks bb).name) := by
  refine ⟨execLoop_fault_inv beh fuel d ce e h, ?_⟩
  intro d₀ cx bb nm d' ent hlog hstep
  rcases execStep_cases beh d₀ cx with
    ⟨hq, hC⟩ | ⟨b2, vals, rest, cx2, d2, hlog2, hq, hcx, hC, -, -, -, -, -⟩ |
    ⟨e2, d2, ent2, hlog2, hC, hfacts⟩ | ⟨d2, cx2, ent2, hlog2, hC, -, -, -⟩
  · rw [hstep] at hC
    simp at hC
  · rw [hstep] at hC
    simp at hC
  · rw [hstep] at hC
    simp only [StepRes.final.injEq] at hC
    have he2 : e2 = RunError.wrapped bb nm := by
      have hr := hC.1
      simp only [ExecResult.fault.injEq] at hr
      exact hr.symm
    subst he2
    rcases hfacts with ⟨nm2, hx, -⟩ | ⟨b3, hx, -, -⟩ | ⟨b3, hx, -, -⟩ |
      ⟨b3, hx, -, -⟩ | ⟨b3, hx, -, -⟩
    · exact absurd hx (by simp)
    · exact absurd hx (by simp)
    · exact absurd hx (by simp)
    · simp only [RunError.wrapped.injEq] at hx
      rw [hx.1]
      exact hx.2
    · exact absurd hx (by simp)
  · rw [hstep] at hC
    exact absurd hC (by simp)

theorem fault_flag_discipline_witness :
    (execLoop valBeh 1 C4bdag true).result = .fault (.validate 0) ∧
    (execLoop valBeh 1 C4bdag true).dag.stopped = C4bdag.stopped ∧
    ((execLoop valBeh 1 C4bdag true).dag.blocks 0).bstate = .error := by
  refine ⟨rfl, ?_⟩
  rcases (fault_flag_discipline valBeh 1 C4bdag true (.validate 0) rfl).1 with
    ⟨nm, hx, -⟩ | ⟨bb, hx, hs, hb⟩ | ⟨bb, hx, -, -⟩ | ⟨bb, nm, hx, -, -⟩ |
    ⟨bb, hx, -, -⟩
  · exact absurd hx (by simp)
  · have hbb : (0 : Nat) = bb := by simpa using hx
    subst hbb
    exact ⟨hs, hb⟩
  · exact absurd hx (by simp)
  · exact absurd hx (by simp)
  · exact absurd hx (by simp)

theorem fault_flag_discipline_cex :
    C4dag.stopped = false ∧
    (execLoop badUpdBeh 1 C4dag true).result = .fault (.paramUpdate "b0") ∧
    (execLoop badUpdBeh 1 C4dag true).dag.stopped = true :=
  ⟨rfl, rfl, rfl⟩

/-- C9 (code bug). The claim (and the spec) say a KeyboardInterrupt raised by
prepare()/execute() makes the context manager set the block's state to
INTERRUPTED and set the dag's cancellation flag. The handler at line 117
evaluates `self.block_state._block_state`, but `_BlockContext` has no
attribute `block_state` (the field is `block`), so the handler itself raises
`AttributeError` before either assignment: the block stays EXECUTING and the
stopper stays clear. -/
theorem keyboard_interrupt_handler_bug :
    (execLoop kbBeh 1 C9dag true).result = .fault (.attrFault 0) ∧
    ((execLoop kbBeh 1 C9dag true).dag.blocks 0).bstate = .executing ∧
    (execLoop kbBeh 1 C9dag true).dag.stopped = false :=
  ⟨rfl, rfl, rfl⟩

/-! ### The dump / load_dag round trip
(`_dag.py` lines 639-733, `_library.py` lines 200-224) -/

/-- A block class as the library delivers it: the `__init__` parameter
names (`co_varnames[1:argcount]`), the class's params with their
`allow_refs` flags, `wait_for_input`, and whether `super().__init__` ran
(so instances have a `doc` attribute). Instantiating a class stores each
constructor keyword as a same-named instance attribute. -/
structure BClass where
  initVars : List String
  params : List (String × Bool)
  wfi : Bool
  hasDoc : Bool

/-- One entry of `dump['blocks']`: the library key, the instance number,
and the saved constructor args (an insertion-ordered dict). -/
structure BlockDump where
  block : String
  inst : Nat
  args : List (String × Val)
deriving DecidableEq, Repr

/-- One entry of `dump['connections']`: instance numbers of the two
blocks and the `conn_args` list of
`(src_param_name, dst_param_name)` dicts. -/
structure ConnDump where
  src : Nat
  dst : Nat
  connArgs : List (String × String)
deriving DecidableEq, Repr

/-- The serialisable tree `Dag.dump` returns. -/
structure DagDump where
  dagType : String
  doc : String
  site : String
  title : String
  blocks : List BlockDump
  connections : List ConnDump
deriving DecidableEq, Repr

/-- The reflection data `dump` reads off a live block instance: its
library key (`block_key()`), its class's `__init__` parameter names, and
its instance attribute dict. -/
structure BInfo where
  key : String
  initVars : List String
  attrs : List (String × Val)

/-- Models `getattr(g, var)` for the attributes `dump` reads: the `name`
param always exists and holds the block's name; every other attribute
comes from the instance dictionary. -/
def getattrV (nm : String) (attrs : List (String × Val)) (v : String) : Option Val :=
  if v = "name" then some (Val.str nm) else dictGet attrs v

/-- Models the `args` dict built by `dump` (lines 677-685):
`{'name': g.name}` then, for each `__init__` parameter the instance has
an attribute for, the attribute's value. -/
def dumpArgs (nm : String) (ivs : List String) (attrs : List (String × Val)) :
    List (String × Val) :=
  ivs.foldl (fun d v =>
    match getattrV nm attrs v with
    | some val => dictSet d v val
    | none => d) [("name", Val.str nm)]

/-- Models `Dag.dump` (lines 639-733). Instances are numbered by first
appearance in `_block_pairs` (the same first-appearance order as
`_for_each_once`); the `blocks` list is emitted in numbering order;
`connections` has one entry per edge, carrying the destination's
name-map entries whose source-name component is that edge's source. -/
def dumpDag (ty doc site title : String) (d : DagS) (info : Nat → BInfo) : DagDump :=
  let ord := forEachOnce d.pairs
  ⟨ty, doc, site, title,
   ord.enum.map (fun p =>
     ⟨(info p.2).key, p.1,
      dumpArgs (d.blocks p.2).name (info p.2).initVars (info p.2).attrs⟩),
   d.pairs.map (fun p =>
     ⟨ord.indexOf p.1, ord.indexOf p.2,
      ((d.blocks p.2).nameMap.filter (fun e => e.1.1 = (d.blocks p.1).name)).map
        (fun e => (e.1.2, e.2))⟩)⟩

/-- The `name` argument a dumped block was saved with. -/
def nameOfArgs (args : List (String × Val)) : String :=
  match dictGet args "name" with
  | some (.str s) => s
  | _ => ""

def defaultBlockS : BlockS := ⟨"", false, .ready, false, [], [], false⟩

def defaultBInfo : BInfo := ⟨"", [], []⟩

def defaultBClass : BClass := ⟨[], [], false, false⟩

/-- Models the instantiation loop of `Library.load_dag` (lines 206-214):
each entry's class is fetched from the library (raising when the key is
absent) and called with the saved args; a duplicate instance number
raises. The fresh instance goes on the heap at its instance number. -/
def loadBlocks (lib : String → Option BClass) :
    List BlockDump → (Nat → BlockS) → (Nat → BInfo) → List Nat →
    Except String ((Nat → BlockS) × (Nat → BInfo))
  | [], bl, inf, _ => .ok (bl, inf)
  | g :: rest, bl, inf, used =>
      if g.inst ∈ used then .error "Instance already exists"
      else
        match lib g.block with
        | none => .error "Block name is not in the library"
        | some cls =>
            loadBlocks lib rest
              (fun n => if n = g.inst then
                  ⟨nameOfArgs g.args, cls.wfi, .ready, false, [], cls.params, cls.hasDoc⟩
                else bl n)
              (fun n => if n = g.inst then ⟨g.block, cls.initVars, g.args⟩ else inf n)
              (used ++ [g.inst])

/-- Models `[Connection(**kwargs) for kwargs in conn['conn_args']]`
(`_library.py` line 221): each pair runs `Connection.__post_init__`. -/
def mkConnections : List (String × String) → Except String (List (String × String))
  | [] => .ok []
  | a :: rest =>
      match mkConnection a.1 a.2 with
      | .error e => .error e
      | .ok p =>
          match mkConnections rest with
          | .error e => .error e
          | .ok l => .ok (p :: l)

/-- Models the connection loop of `Library.load_dag` (lines 220-222):
build the `Connection`s for one entry, then `dag.connect` the two
instances; any `BlockError` raised by `connect` aborts the load. -/
def loadConns : List ConnDump → DagS → Except String DagS
  | [], d => .ok d
  | c :: rest, d =>
      match mkConnections c.connArgs with
      | .error e => .error e
      | .ok conns =>
          match connect d c.src c.dst conns with
          | (some _, _) => .error "connect raised"
          | (none, d') => loadConns rest d'

/-- Models `Library.load_dag(dump)` (lines 200-224): instantiate the
blocks, build a fresh `Dag` (a `PanelDag` exactly when the dumped type
string says so) with the dumped doc/site/title, and replay the
connections. -/
def loadDag (lib : String → Option BClass) (x : DagDump) :
    Except String (String × DagS × (Nat → BInfo)) :=
  match loadBlocks lib x.blocks (fun _ => defaultBlockS) (fun _ => defaultBInfo) [] with
  | .error e => .error e
  | .ok (bl, inf) =>
      match loadConns x.connections ⟨bl, [], [], [], [], false⟩ with
      | .error e => .error e
      | .ok d =>
          .ok (if x.dagType = "PanelDag" then "PanelDag" else "Dag", d, inf)

/-- The edges of a dump, as instance-number pairs. -/
def connPairs (x : DagDump) : List (Nat × Nat) :=
  x.connections.map (fun c => (c.src, c.dst))

/-- The incremental-connectivity discipline `connect` enforces: every
edge after the first must touch a block already in the dag. -/
def incrementalOk : List (Nat × Nat) → List (Nat × Nat) → Bool
  | _, [] => true
  | done, p :: rest =>
      (done.isEmpty ||
        done.any (fun q => q.1 = p.1 ∨ q.2 = p.1 ∨ q.1 = p.2 ∨ q.2 = p.2)) &&
      incrementalOk (done ++ [p]) rest

/-- A dumped block's class is in the library, has a `doc` attribute, and
reproduces the saved args when a fresh instance is dumped again. -/
def classOk (lib : String → Option BClass) (g : BlockDump) : Bool :=
  match lib g.block with
  | none => false
  | some cls =>
      cls.hasDoc && decide (dumpArgs (nameOfArgs g.args) cls.initVars g.args = g.args)

def blockAt (x : DagDump) (k : Nat) : BlockDump := x.blocks.getD k ⟨"", 0, []⟩

def classAt (lib : String → Option BClass) (x : DagDump) (k : Nat) : BClass :=
  (lib (blockAt x k).block).getD defaultBClass

/-- The name the block at instance number `k` was dumped with. -/
def bnameX (x : DagDump) (k : Nat) : String := nameOfArgs (blockAt x k).args

/-- The name-map the replayed destination `k` has accumulated after the
first `i` connection entries. -/
def nmAcc (x : DagDump) (i k : Nat) : List ((String × String) × String) :=
  (x.connections.take i).flatMap (fun c =>
    if c.dst = k then c.connArgs.map (fun a => ((bnameX x c.src, a.1), a.2)) else [])

/-- The well-formedness a dump of a valid dag enjoys: instance numbers
are positions in the blocks list, the edges visit the instances in
numbering order, every class is registered and round-trips its args,
block names are distinct, edges are distinct, loop-free as a list and
acyclic as a graph, each added edge touches the dag built so far, every
edge carries at least one connection whose params are prefixed `out_` /
`in_` and exist on the source class without `allow_refs`, and the dag
type names `Dag` or `PanelDag`. -/
structure C6Wf (lib : String → Option BClass) (x : DagDump) : Prop where
  hinst : ∀ (j : Fin x.blocks.length), (x.blocks.get j).inst = j.1
  hord : forEachOnce (connPairs x) = List.range x.blocks.length
  hcls : ∀ g ∈ x.blocks, classOk lib g = true
  hnames : (x.blocks.map (fun g => nameOfArgs g.args)).Nodup
  hpairs : (connPairs x).Nodup
  hirrefl : ∀ c ∈ x.connections, ¬ c.src = c.dst
  hconn : ∀ c ∈ x.connections, ¬ c.connArgs = [] ∧ (c.connArgs.map Prod.fst).Nodup ∧
    ∀ a ∈ c.connArgs, strStartsWith a.1 "out_" = true ∧ strStartsWith a.2 "in_" = true
  hparams : ∀ c ∈ x.connections, ∀ a ∈ c.connArgs,
    (classAt lib x c.src).params.lookup a.1 = some false
  hacyc : has_cycle (fun _ => "") (connPairs x) = false
  hincr : incrementalOk [] (connPairs x) = true
  htype : x.dagType = "Dag" ∨ x.dagType = "PanelDag"

theorem mem_foldl_dedup (l : List Nat) :
    ∀ (acc : List Nat) (x : Nat),
      x ∈ l.foldl (fun acc g => if g ∈ acc then acc else acc ++ [g]) acc ↔
        x ∈ acc ∨ x ∈ l := by
  induction l with
  | nil => intro acc x; simp
  | cons a rest ih =>
      intro acc x
      simp only [List.foldl_cons]
      by_cases ha : a ∈ acc
      · rw [if_pos ha, ih]
        simp only [List.mem_cons]
        constructor
        · rintro (h | h)
          · exact Or.inl h
          · exact Or.inr (Or.inr h)
        · rintro (h | rfl | h)
          · exact Or.inl h
          · exact Or.inl ha
          · exact Or.inr h
      · rw [if_neg ha, ih]
        simp only [List.mem_append, List.mem_singleton, List.mem_cons]
        tauto

theorem mem_forEachOnce {pairs : List (Nat × Nat)} {x : Nat} :
    x ∈ forEachOnce pairs ↔ ∃ p ∈ pairs, x = p.1 ∨ x = p.2 := by
  unfold forEachOnce
  rw [mem_foldl_dedup]
  simp only [List.not_mem_nil, false_or, List.mem_flatMap, List.mem_cons,
    List.mem_singleton]
  constructor
  · rintro ⟨p, hp, h | h | h⟩
    · exact ⟨p, hp, Or.inl h⟩
    · exact ⟨p, hp, Or.inr h⟩
    · cases h
  · rintro ⟨p, hp, h | h⟩
    · exact ⟨p, hp, Or.inl h⟩
    · exact ⟨p, hp, Or.inr (Or.inl h)⟩

theorem alistSet_fresh {α β : Type} [DecidableEq α] :
    ∀ (d : List (α × β)) (k : α) (v : β), (∀ e ∈ d, ¬ e.1 = k) →
      alistSet d k v = d ++ [(k, v)] := by
  intro d
  induction d with
  | nil => intro k v _; rfl
  | cons e rest ih =>
      intro k v hf
      obtain ⟨k0, v0⟩ := e
      unfold alistSet
      rw [if_neg (hf (k0, v0) (List.mem_cons_self _ _))]
      rw [ih k v (fun e he => hf e (List.mem_cons.2 (Or.inr he)))]
      rfl

theorem foldl_alistSet_fresh :
    ∀ (conns : List (String × String)) (nm : List ((String × String) × String))
      (sname : String),
      (∀ a ∈ conns, ∀ e ∈ nm, ¬ e.1 = (sname, a.1)) →
      (conns.map Prod.fst).Nodup →
      conns.foldl (fun m a => alistSet m (sname, a.1) a.2) nm =
        nm ++ conns.map (fun a => ((sname, a.1), a.2)) := by
  intro conns
  induction conns with
  | nil => intro nm sname _ _; simp
  | cons a rest ih =>
      intro nm sname hf hnd
      simp only [List.foldl_cons]
      rw [alistSet_fresh nm (sname, a.1) a.2 (fun e he => hf a (List.mem_cons_self _ _) e he)]
      have hnd' : (rest.map Prod.fst).Nodup := (List.nodup_cons.1 (by simpa using hnd)).2
      have hhead : ¬ a.1 ∈ rest.map Prod.fst := (List.nodup_cons.1 (by simpa using hnd)).1
      rw [ih (nm ++ [((sname, a.1), a.2)]) sname ?_ hnd']
      · simp
      · intro a' ha' e he
        rcases List.mem_append.1 he with h | h
        · exact hf a' (List.mem_cons.2 (Or.inr ha')) e h
        · have he' : e = ((sname, a.1), a.2) := by simpa using h
          subst he'
          intro hk
          have : a.1 = a'.1 := by
            have := congrArg Prod.snd hk
            simpa using this
          exact hhead (this ▸ List.mem_map.2 ⟨a', ha', rfl⟩)

theorem connectLoop_ok (sname : String) (params : List (String × Bool)) :
    ∀ (conns : List (String × String)) (nm : List ((String × String) × String))
      (ops : List String),
      (∀ a ∈ conns, params.lookup a.1 = some false) →
      connectLoop sname params conns nm ops =
        (none, conns.foldl (fun m a => alistSet m (sname, a.1) a.2) nm,
          ops ++ conns.map Prod.fst) := by
  intro conns
  induction conns with
  | nil => intro nm ops _; simp [connectLoop]
  | cons a rest ih =>
      intro nm ops hl
      obtain ⟨spn, dpn⟩ := a
      have hsp : params.lookup spn = some false := hl (spn, dpn) (List.mem_cons_self _ _)
      simp only [connectLoop, hsp]
      rw [if_neg (by simp)]
      rw [ih (alistSet nm (sname, spn) dpn) (ops ++ [spn])
        (fun a' ha' => hl a' (List.mem_cons.2 (Or.inr ha')))]
      simp

set_option maxHeartbeats 2000000 in
theorem mkConnections_ok : ∀ (l : List (String × String)),
    (∀ a ∈ l, strStartsWith a.1 "out_" = true ∧ strStartsWith a.2 "in_" = true) →
    mkConnections l = .ok l := by
  intro l
  induction l with
  | nil => intro _; rfl
  | cons a rest ih =>
      intro h
      obtain ⟨h1, h2⟩ := h a (List.mem_cons_self _ _)
      have hc : mkConnection a.1 a.2 = .ok (a.1, a.2) := by
        unfold mkConnection
        rw [if_neg (by simp [h1]), if_neg (by simp [h2])]
      unfold mkConnections
      rw [hc, ih (fun a' ha' => h a' (List.mem_cons.2 (Or.inr ha')))]

theorem not_hasCycleIn_of_sub {p q : List (Nat × Nat)} (hsub : ∀ e ∈ p, e ∈ q)
    (h : ¬ HasCycleIn q) : ¬ HasCycleIn p := by
  rintro ⟨v, w, hne, hw, hl⟩
  exact h ⟨v, w, hne, walk_mono hsub w v hw, hl⟩

theorem no_cycle_of_has_cycle_false (nm : Nat → String) (p : List (Nat × Nat))
    (h : has_cycle nm p = false) : ¬ HasCycleIn p := by
  unfold has_cycle at h
  simp only [decide_eq_false_iff_not, Nat.not_lt, Nat.le_zero] at h
  exact (remaining_empty_iff_no_cycle nm p).1 (List.eq_nil_of_length_eq_zero h)

theorem has_cycle_false_of_no_cycle (nm : Nat → String) (p : List (Nat × Nat))
    (h : ¬ HasCycleIn p) : has_cycle nm p = false := by
  have hdone := (remaining_empty_iff_no_cycle nm p).2 h
  unfold has_cycle
  simp [hdone]

theorem incrementalOk_split :
    ∀ (pre done post : List (Nat × Nat)),
      incrementalOk done (pre ++ post) = true →
      incrementalOk (done ++ pre) post = true := by
  intro pre
  induction pre with
  | nil => intro done post h; simpa using h
  | cons p rest ih =>
      intro done post h
      simp only [List.cons_append, incrementalOk, Bool.and_eq_true] at h
      have := ih (done ++ [p]) post h.2
      simpa [List.append_assoc] using this

theorem indexOf_range : ∀ (n k : Nat), k < n → (List.range n).indexOf k = k := by
  intro n
  induction n with
  | zero => intro k h; omega
  | succ n ih =>
      intro k h
      rw [List.range_succ]
      by_cases hk : k < n
      · rw [List.indexOf_append_of_mem (List.mem_range.2 hk)]
        exact ih k hk
      · have hkn : k = n := by omega
        subst hkn
        rw [List.indexOf_append_of_not_mem (by simp)]
        simp

theorem zip_self_eq_map {α : Type} : ∀ (l : List α), l.zip l = l.map (fun a => (a, a)) := by
  intro l
  induction l with
  | nil => rfl
  | cons a rest ih => simp [ih]

theorem enum_range (n : Nat) :
    (List.range n).enum = (List.range n).map (fun i => (i, i)) := by
  rw [List.enum_eq_zip_range, List.length_range, zip_self_eq_map]

theorem filter_flatMap {α β : Type} (p : β → Bool) (f : α → List β) :
    ∀ l : List α, (l.flatMap f).filter p = l.flatMap (fun a => (f a).filter p) := by
  intro l
  induction l with
  | nil => rfl
  | cons a rest ih => simp [List.filter_append, ih]

theorem flatMap_eq_nil_of {α β : Type} (f : α → List β) :
    ∀ l : List α, (∀ a ∈ l, f a = []) → l.flatMap f = [] := by
  intro l
  induction l with
  | nil => intro _; rfl
  | cons a rest ih =>
      intro h
      simp only [List.flatMap_cons, h a (List.mem_cons_self _ _),
        ih (fun a' ha' => h a' (List.mem_cons.2 (Or.inr ha'))), List.nil_append]

theorem flatMap_unique {α β : Type} (f : α → Nat × Nat) (g : α → List β)
    (l1 l2 : List α) (c : α)
    (h1 : ∀ a ∈ l1, ¬ f a = f c) (h2 : ∀ a ∈ l2, ¬ f a = f c) :
    (l1 ++ c :: l2).flatMap (fun a => if f a = f c then g a else []) = g c := by
  rw [List.flatMap_append, List.flatMap_cons]
  rw [flatMap_eq_nil_of _ l1 (fun a ha => by rw [if_neg (h1 a ha)]),
      flatMap_eq_nil_of _ l2 (fun a ha => by rw [if_neg (h2 a ha)])]
  simp

theorem take_succ_eq {α : Type} : ∀ (l : List α) (i : Nat) (h : i < l.length),
    l.take (i + 1) = l.take i ++ [l.get ⟨i, h⟩] := by
  intro l
  induction l with
  | nil => intro i h; simp at h
  | cons a rest ih =>
      intro i h
      cases i with
      | zero => simp
      | succ i =>
          simp only [List.take_succ_cons, List.cons_append, List.get]
          rw [ih i (by simpa using h)]

theorem take_drop_split {α : Type} : ∀ (l : List α) (i : Nat) (h : i < l.length),
    l = l.take i ++ l.get ⟨i, h⟩ :: l.drop (i + 1) := by
  intro l
  induction l with
  | nil => intro i h; simp at h
  | cons a rest ih =>
      intro i h
      cases i with
      | zero => simp
      | succ i =>
          simp only [List.take_succ_cons, List.cons_append, List.get, List.drop_succ_cons]
          rw [← ih i (by simpa using h)]

theorem nmAcc_succ (x : DagDump) (i k : Nat) (hi : i < x.connections.length) :
    nmAcc x (i + 1) k =
      nmAcc x i k ++
        (if (x.connections.get ⟨i, hi⟩).dst = k then
          (x.connections.get ⟨i, hi⟩).connArgs.map
            (fun a => ((bnameX x (x.connections.get ⟨i, hi⟩).src, a.1), a.2))
        else []) := by
  unfold nmAcc
  rw [take_succ_eq x.connections i hi, List.flatMap_append, List.flatMap_cons]
  simp

theorem loadBlocks_spec (lib : String → Option BClass) :
    ∀ (bs : List BlockDump) (i : Nat) (bl : Nat → BlockS) (inf : Nat → BInfo)
      (used : List Nat),
      (∀ (j : Fin bs.length), (bs.get j).inst = i + j.1) →
      (∀ g ∈ bs, classOk lib g = true) →
      (∀ u ∈ used, u < i) →
      ∃ bl' inf', loadBlocks lib bs bl inf used = .ok (bl', inf') ∧
        (∀ n, (n < i ∨ i + bs.length ≤ n) → bl' n = bl n ∧ inf' n = inf n) ∧
        (∀ (j : Fin bs.length), ∃ cls,
          lib (bs.get j).block = some cls ∧
          bl' (i + j.1) = ⟨nameOfArgs (bs.get j).args, cls.wfi, .ready, false, [],
            cls.params, cls.hasDoc⟩ ∧
          inf' (i + j.1) = ⟨(bs.get j).block, cls.initVars, (bs.get j).args⟩) := by
  intro bs
  induction bs with
  | nil =>
      intro i bl inf used _ _ _
      exact ⟨bl, inf, rfl, fun n _ => ⟨rfl, rfl⟩, fun j => absurd j.2 (by simp)⟩
  | cons g rest ih =>
      intro i bl inf used hinst hcls hused
      have hg0 : g.inst = i := by
        have := hinst ⟨0, by simp⟩
        simpa using this
      have hnotused : ¬ g.inst ∈ used := by
        intro h
        have := hused _ h
        omega
      have hclsg := hcls g (List.mem_cons_self _ _)
      unfold classOk at hclsg
      cases hlb : lib g.block with
      | none => rw [hlb] at hclsg; cases hclsg
      | some cls =>
          obtain ⟨bl', inf', heq, hfr, hchar⟩ := ih (i + 1)
            (fun n => if n = g.inst then
                ⟨nameOfArgs g.args, cls.wfi, .ready, false, [], cls.params, cls.hasDoc⟩
              else bl n)
            (fun n => if n = g.inst then ⟨g.block, cls.initVars, g.args⟩ else inf n)
            (used ++ [g.inst])
            (by
              intro j
              have h2 : (rest.get j).inst = i + (j.1 + 1) :=
                hinst ⟨j.1 + 1, by simp only [List.length_cons]; omega⟩
              omega)
            (fun g' hg' => hcls g' (List.mem_cons.2 (Or.inr hg')))
            (by
              intro u hu
              rcases List.mem_append.1 hu with h | h
              · have := hused u h; omega
              · have : u = g.inst := by simpa using h
                omega)
          refine ⟨bl', inf', ?_, ?_, ?_⟩
          · unfold loadBlocks
            rw [if_neg hnotused, hlb]
            exact heq
          · intro n hn
            have hn' : n < i ∨ i + rest.length + 1 ≤ n := by
              rcases hn with h | h
              · exact Or.inl h
              · right
                simp only [List.length_cons] at h
                omega
            have hni : ¬ n = g.inst := by
              rw [hg0]
              rcases hn' with h | h <;> omega
            have h' := hfr n (by
              rcases hn' with h | h
              · exact Or.inl (by omega)
              · exact Or.inr (by omega))
            rw [h'.1, h'.2]
            simp [hni]
          · intro j
            match j with
            | ⟨0, h0⟩ =>
                refine ⟨cls, by simpa using hlb, ?_, ?_⟩
                · have h' := hfr i (Or.inl (by omega))
                  rw [show i + (0 : Nat) = i from rfl, h'.1]
                  simp [hg0]
                · have h' := hfr i (Or.inl (by omega))
                  rw [show i + (0 : Nat) = i from rfl, h'.2]
                  simp [hg0]
            | ⟨j' + 1, hj⟩ =>
                obtain ⟨cls', h1, h2, h3⟩ := hchar ⟨j', by simpa using hj⟩
                refine ⟨cls', by simpa using h1, ?_, ?_⟩
                · rw [show i + (j' + 1) = i + 1 + j' by omega]
                  simpa using h2
                · rw [show i + (j' + 1) = i + 1 + j' by omega]
                  simpa using h3

theorem connPairs_mem_lt {lib : String → Option BClass} {x : DagDump}
    (hwf : C6Wf lib x) {c : ConnDump} (hc : c ∈ x.connections) :
    c.src < x.blocks.length ∧ c.dst < x.blocks.length := by
  have hmem : (c.src, c.dst) ∈ connPairs x := List.mem_map.2 ⟨c, hc, rfl⟩
  have h1 : c.src ∈ forEachOnce (connPairs x) :=
    mem_forEachOnce.2 ⟨(c.src, c.dst), hmem, Or.inl rfl⟩
  have h2 : c.dst ∈ forEachOnce (connPairs x) :=
    mem_forEachOnce.2 ⟨(c.src, c.dst), hmem, Or.inr rfl⟩
  rw [hwf.hord] at h1 h2
  exact ⟨List.mem_range.1 h1, List.mem_range.1 h2⟩

theorem blockAt_eq_get (x : DagDump) {k : Nat} (h : k < x.blocks.length) :
    blockAt x k = x.blocks.get ⟨k, h⟩ := by
  unfold blockAt
  rw [List.getD_eq_getElem x.blocks _ h]
  simp

theorem bnameX_inj {lib : String → Option BClass} {x : DagDump}
    (hwf : C6Wf lib x) {j k : Nat}
    (hj : j < x.blocks.length) (hk : k < x.blocks.length)
    (h : bnameX x j = bnameX x k) : j = k := by
  have hjl : j < (x.blocks.map (fun g => nameOfArgs g.args)).length := by simpa using hj
  have hkl : k < (x.blocks.map (fun g => nameOfArgs g.args)).length := by simpa using hk
  have e1 : bnameX x j = (x.blocks.map (fun g => nameOfArgs g.args)).get ⟨j, hjl⟩ := by
    unfold bnameX
    rw [blockAt_eq_get x hj]
    simp
  have e2 : bnameX x k = (x.blocks.map (fun g => nameOfArgs g.args)).get ⟨k, hkl⟩ := by
    unfold bnameX
    rw [blockAt_eq_get x hk]
    simp
  rw [e1, e2] at h
  have := (hwf.hnames.get_inj_iff).1 h
  simpa using congrArg Fin.val this

theorem classAt_spec {lib : String → Option BClass} {x : DagDump}
    (hwf : C6Wf lib x) {k : Nat} (hk : k < x.blocks.length) :
    lib (blockAt x k).block = some (classAt lib x k) ∧
    (classAt lib x k).hasDoc = true ∧
    dumpArgs (bnameX x k) (classAt lib x k).initVars (blockAt x k).args =
      (blockAt x k).args := by
  have hmem : blockAt x k ∈ x.blocks := by
    rw [blockAt_eq_get x hk]
    exact List.get_mem _ _ _
  have h := hwf.hcls _ hmem
  unfold classOk at h
  cases hlb : lib (blockAt x k).block with
  | none => rw [hlb] at h; cases h
  | some cls =>
      rw [hlb, Bool.and_eq_true] at h
      have hca : classAt lib x k = cls := by
        unfold classAt
        rw [hlb]
        rfl
      rw [hca]
      exact ⟨rfl, h.1, of_decide_eq_true h.2⟩

set_option maxHeartbeats 2000000 in
theorem loadConns_replay (lib : String → Option BClass) (x : DagDump)
    (hwf : C6Wf lib x) (bl0 : Nat → BlockS)
    (hbl0 : ∀ k, k < x.blocks.length →
      bl0 k = ⟨bnameX x k, (classAt lib x k).wfi, .ready, false, [],
        (classAt lib x k).params, (classAt lib x k).hasDoc⟩) :
    ∀ (cs : List ConnDump) (i : Nat) (d : DagS),
      cs = x.connections.drop i →
      d.pairs = (connPairs x).take i →
      d.queue = [] → d.stopped = false → d.bag = [] →
      (∀ k, d.blocks k = { bl0 k with nameMap := nmAcc x i k }) →
      ∃ d', loadConns cs d = .ok d' ∧
        d'.pairs = connPairs x ∧ d'.queue = [] ∧ d'.stopped = false ∧ d'.bag = [] ∧
        (∀ k, d'.blocks k = { bl0 k with
          nameMap := nmAcc x x.connections.length k }) := by
  intro cs
  induction cs with
  | nil =>
      intro i d hdrop hpairs hq hs hb hblocks
      have hge : x.connections.length ≤ i := by
        have := congrArg List.length hdrop
        simp only [List.length_nil, List.length_drop] at this
        omega
      have htk : ∀ (m : Nat), x.connections.length ≤ m →
          x.connections.take m = x.connections := fun m hm => List.take_of_length_le hm
      refine ⟨d, rfl, ?_, hq, hs, hb, ?_⟩
      · rw [hpairs]
        apply List.take_of_length_le
        unfold connPairs
        rw [List.length_map]
        omega
      · intro k
        rw [hblocks k]
        unfold nmAcc
        rw [htk i hge, htk x.connections.length (Nat.le_refl _)]
  | cons c cs' ih =>
      intro i d hdrop hpairs hq hs hb hblocks
      have hlen := congrArg List.length hdrop
      simp only [List.length_cons, List.length_drop] at hlen
      have hi : i < x.connections.length := by omega
      have hdg := List.drop_eq_getElem_cons hi
      rw [← hdrop] at hdg
      have hcc := List.cons_eq_cons.1 hdg
      have hc_eq : c = x.connections[i] := hcc.1
      have hcs' : cs' = x.connections.drop (i + 1) := hcc.2
      have hcget : x.connections.get ⟨i, hi⟩ = c := by
        rw [List.get_eq_getElem]
        exact hc_eq.symm
      have hcmem : c ∈ x.connections := by
        rw [hc_eq]
        exact List.getElem_mem _
      obtain ⟨hsrclt, hdstlt⟩ := connPairs_mem_lt hwf hcmem
      have hcpmem : (c.src, c.dst) ∈ connPairs x := List.mem_map.2 ⟨c, hcmem, rfl⟩
      -- splitting the pair list at position i
      have htake1 : (connPairs x).take (i + 1) =
          (connPairs x).take i ++ [(c.src, c.dst)] := by
        unfold connPairs
        rw [← List.map_take, ← List.map_take, take_succ_eq x.connections i hi,
          List.map_append, hcget]
        rfl
      have hnotin : ¬ (c.src, c.dst) ∈ (connPairs x).take i := by
        intro hmem
        have hnd : ((connPairs x).take (i + 1)).Nodup :=
          hwf.hpairs.sublist (List.take_sublist _ _)
        rw [htake1] at hnd
        exact (List.disjoint_of_nodup_append hnd) hmem (List.mem_singleton.2 rfl)
      -- field access on the current heap
      have hfname : ∀ k, (d.blocks k).name = (bl0 k).name := fun k => by rw [hblocks k]
      have hfparams : ∀ k, (d.blocks k).params = (bl0 k).params := fun k => by
        rw [hblocks k]
      have hfdoc : ∀ k, (d.blocks k).hasDoc = (bl0 k).hasDoc := fun k => by
        rw [hblocks k]
      have hfmap : ∀ k, (d.blocks k).nameMap = nmAcc x i k := fun k => by rw [hblocks k]
      have hnm : ∀ k, k < x.blocks.length → (d.blocks k).name = bnameX x k := by
        intro k hk
        rw [hfname k, hbl0 k hk]
      -- every block mentioned in the current edge list is a real instance
      have hnodes : ∀ g, g ∈ forEachOnce d.pairs → g < x.blocks.length := by
        intro g hg
        rw [hpairs] at hg
        obtain ⟨p, hp, hgp⟩ := mem_forEachOnce.1 hg
        have hp' : p ∈ connPairs x := List.take_subset _ _ hp
        have : g ∈ forEachOnce (connPairs x) := mem_forEachOnce.2 ⟨p, hp', hgp⟩
        rw [hwf.hord] at this
        exact List.mem_range.1 this
      have hedge_lt : ∀ p, p ∈ connPairs x → p.1 < x.blocks.length ∧
          p.2 < x.blocks.length := by
        intro p hp
        constructor
        · have : p.1 ∈ forEachOnce (connPairs x) :=
            mem_forEachOnce.2 ⟨p, hp, Or.inl rfl⟩
          rw [hwf.hord] at this
          exact List.mem_range.1 this
        · have : p.2 ∈ forEachOnce (connPairs x) :=
            mem_forEachOnce.2 ⟨p, hp, Or.inr rfl⟩
          rw [hwf.hord] at this
          exact List.mem_range.1 this
      -- the guards of connect
      have hcond1 : ((d.blocks c.src).hasDoc && (d.blocks c.dst).hasDoc) = true := by
        rw [hfdoc c.src, hfdoc c.dst, hbl0 _ hsrclt, hbl0 _ hdstlt]
        simp [(classAt_spec hwf hsrclt).2.1, (classAt_spec hwf hdstlt).2.1]
      have hcyc2 : has_cycle (heapNameOf d) (d.pairs ++ [(c.src, c.dst)]) = false := by
        apply has_cycle_false_of_no_cycle
        apply not_hasCycleIn_of_sub ?_ (no_cycle_of_has_cycle_false _ _ hwf.hacyc)
        intro e he
        rw [hpairs, ← htake1] at he
        exact List.take_subset _ _ he
      have hsame : ¬ (d.blocks c.src).name = (d.blocks c.dst).name := by
        rw [hnm c.src hsrclt, hnm c.dst hdstlt]
        intro h
        exact hwf.hirrefl c hcmem (bnameX_inj hwf hsrclt hdstlt h)
      have hdup : (forEachOnce d.pairs).any (fun g =>
          (g ≠ c.src ∧ heapNameOf d g = (d.blocks c.src).name) ∨
          (g ≠ c.dst ∧ heapNameOf d g = (d.blocks c.dst).name)) = false := by
        rw [List.any_eq_false]
        intro g hg
        have hglt := hnodes g hg
        simp only [decide_eq_true_eq]
        rintro (⟨hne, hn⟩ | ⟨hne, hn⟩)
        · unfold heapNameOf at hn
          rw [hnm g hglt, hnm c.src hsrclt] at hn
          exact hne (bnameX_inj hwf hglt hsrclt hn)
        · unfold heapNameOf at hn
          rw [hnm g hglt, hnm c.dst hdstlt] at hn
          exact hne (bnameX_inj hwf hglt hdstlt hn)
      have halready : d.pairs.any (fun p => p.1 = c.src ∧ p.2 = c.dst) = false := by
        rw [List.any_eq_false]
        intro p hp
        simp only [decide_eq_true_eq]
        rintro ⟨h1, h2⟩
        apply hnotin
        rw [hpairs] at hp
        have hpe : p = (c.src, c.dst) := by
          obtain ⟨pa, pb⟩ := p
          simp only at h1 h2
          rw [h1, h2]
        rw [← hpe]
        exact hp
      have hconnected : ¬ (¬ d.pairs.isEmpty = true ∧
          ¬ d.pairs.any (fun p => p.1 = c.src ∨ p.2 = c.src ∨
            p.1 = c.dst ∨ p.2 = c.dst) = true) := by
        have hilencp : i < (connPairs x).length := by
          unfold connPairs
          rw [List.length_map]
          exact hi
        have hcpsplit : connPairs x = (connPairs x).take i ++
            (c.src, c.dst) :: (connPairs x).drop (i + 1) := by
          have h1 := take_drop_split (connPairs x) i hilencp
          have h2 : (connPairs x).get ⟨i, hilencp⟩ = (c.src, c.dst) := by
            unfold connPairs
            rw [List.get_eq_getElem, List.getElem_map]
            rw [show x.connections[i] = c from hc_eq.symm]
          rw [h2] at h1
          exact h1
        have hstep := incrementalOk_split ((connPairs x).take i) []
          ((c.src, c.dst) :: (connPairs x).drop (i + 1))
          (by rw [← hcpsplit]; exact hwf.hincr)
        rw [List.nil_append] at hstep
        simp only [incrementalOk, Bool.and_eq_true, Bool.or_eq_true] at hstep
        rintro ⟨hne, hnany⟩
        rcases hstep.1 with h | h
        · rw [hpairs] at hne
          exact hne h
        · apply hnany
          rw [hpairs]
          exact h
      have hempty : ¬ c.connArgs.isEmpty = true := by
        intro h
        exact (hwf.hconn c hcmem).1 (List.isEmpty_iff.1 h)
      -- the connection loop
      have hlkp : ∀ a ∈ c.connArgs, (d.blocks c.src).params.lookup a.1 = some false := by
        intro a ha
        rw [hfparams c.src, hbl0 _ hsrclt]
        exact hwf.hparams c hcmem a ha
      have hfresh : ∀ a ∈ c.connArgs, ∀ e ∈ (d.blocks c.dst).nameMap,
          ¬ e.1 = (bnameX x c.src, a.1) := by
        intro a ha e he hk
        rw [hfmap c.dst] at he
        unfold nmAcc at he
        obtain ⟨c', hc', hee⟩ := List.mem_flatMap.1 he
        by_cases hdst : c'.dst = c.dst
        · rw [if_pos hdst] at hee
          obtain ⟨a', _, hea⟩ := List.mem_map.1 hee
          have hgname : bnameX x c'.src = bnameX x c.src := by
            have := congrArg Prod.fst (congrArg Prod.fst hea)
            simp only at this
            rw [hk] at this
            simpa using this
          have hc'mem : c' ∈ x.connections := List.take_subset _ _ hc'
          have hc'src := (connPairs_mem_lt hwf hc'mem).1
          have hsrceq : c'.src = c.src := bnameX_inj hwf hc'src hsrclt hgname
          apply hnotin
          have : (c'.src, c'.dst) ∈ (connPairs x).take i := by
            unfold connPairs
            rw [← List.map_take]
            exact List.mem_map.2 ⟨c', hc', rfl⟩
          rw [hsrceq, hdst] at this
          exact this
        · rw [if_neg hdst] at hee
          cases hee
      have hloop : connectLoop (d.blocks c.src).name (d.blocks c.src).params
          c.connArgs (d.blocks c.dst).nameMap [] =
          (none, nmAcc x (i + 1) c.dst, [] ++ c.connArgs.map Prod.fst) := by
        rw [connectLoop_ok _ _ _ _ _ hlkp]
        have hsn : (d.blocks c.src).name = bnameX x c.src := hnm c.src hsrclt
        rw [hsn]
        rw [foldl_alistSet_fresh c.connArgs (d.blocks c.dst).nameMap
          (bnameX x c.src) hfresh (hwf.hconn c hcmem).2.1]
        rw [hfmap c.dst]
        rw [nmAcc_succ x i c.dst hi, hcget, if_pos rfl]
      -- connect succeeds with exactly the in-loop mutation
      have hC : connect d c.src c.dst c.connArgs = (none, { d with
          blocks := updBlock d.blocks c.dst
            (fun b => { b with nameMap := nmAcc x (i + 1) c.dst }),
          watchers := d.watchers ++ [⟨c.src, [] ++ c.connArgs.map Prod.fst, c.dst⟩],
          pairs := d.pairs ++ [(c.src, c.dst)] }) := by
        unfold connect
        rw [if_neg (not_not_intro hcond1)]
        rw [if_neg (by rw [hcyc2]; simp)]
        rw [if_neg hsame]
        rw [if_neg (by rw [hdup]; simp)]
        rw [if_neg (by rw [halready]; simp)]
        rw [if_neg hconnected]
        rw [if_neg hempty]
        rw [hloop]
      -- one loadConns step, then the induction hypothesis
      have hstep : loadConns (c :: cs') d = loadConns cs' { d with
          blocks := updBlock d.blocks c.dst
            (fun b => { b with nameMap := nmAcc x (i + 1) c.dst }),
          watchers := d.watchers ++ [⟨c.src, [] ++ c.connArgs.map Prod.fst, c.dst⟩],
          pairs := d.pairs ++ [(c.src, c.dst)] } := by
        rw [loadConns]
        rw [mkConnections_ok c.connArgs (hwf.hconn c hcmem).2.2]
        simp only
        rw [hC]
      rw [hstep]
      apply ih (i + 1)
      · exact hcs'
      · simp only [List.append_assoc]
        rw [hpairs, ← htake1]
      · exact hq
      · exact hs
      · exact hb
      · intro k
        by_cases hk : k = c.dst
        · subst hk
          simp only [updBlock_self]
          rw [hblocks c.dst]
        · show updBlock d.blocks c.dst
            (fun b => { b with nameMap := nmAcc x (i + 1) c.dst }) k =
            { bl0 k with nameMap := nmAcc x (i + 1) k }
          rw [updBlock_ne _ _ _ _ hk, hblocks k]
          have : nmAcc x (i + 1) k = nmAcc x i k := by
            rw [nmAcc_succ x i k hi, hcget, if_neg (fun h => hk h.symm)]
            simp
          rw [this]

theorem flatMap_congr {α β : Type} (f1 f2 : α → List β) :
    ∀ l : List α, (∀ a ∈ l, f1 a = f2 a) → l.flatMap f1 = l.flatMap f2 := by
  intro l
  induction l with
  | nil => intro _; rfl
  | cons a rest ih =>
      intro h
      simp only [List.flatMap_cons, h a (List.mem_cons_self _ _),
        ih (fun a' ha' => h a' (List.mem_cons.2 (Or.inr ha')))]

/-- The destination's fully-replayed name map, filtered to one edge's
source name, is exactly that edge's dumped connection list. -/
theorem nmAcc_filter (lib : String → Option BClass) (x : DagDump) (hwf : C6Wf lib x)
    (j : Nat) (hj : j < x.connections.length) :
    ((nmAcc x x.connections.length (x.connections.get ⟨j, hj⟩).dst).filter
      (fun e => e.1.1 = bnameX x (x.connections.get ⟨j, hj⟩).src)).map
        (fun e => (e.1.2, e.2)) = (x.connections.get ⟨j, hj⟩).connArgs := by
  have hcmem : x.connections.get ⟨j, hj⟩ ∈ x.connections := List.get_mem _ _ _
  obtain ⟨hsrclt, hdstlt⟩ := connPairs_mem_lt hwf hcmem
  set c := x.connections.get ⟨j, hj⟩ with hc
  have hsplit : x.connections = x.connections.take j ++ c :: x.connections.drop (j + 1) := by
    rw [hc]
    exact take_drop_split x.connections j hj
  have hnd : (x.connections.map (fun c' => (c'.src, c'.dst))).Nodup := hwf.hpairs
  have hnodup2 : ((x.connections.take j).map (fun c' => (c'.src, c'.dst))).Disjoint
      ((c.src, c.dst) :: (x.connections.drop (j + 1)).map (fun c' => (c'.src, c'.dst))) ∧
      ¬ (c.src, c.dst) ∈ (x.connections.drop (j + 1)).map (fun c' => (c'.src, c'.dst)) := by
    rw [hsplit] at hnd
    rw [List.map_append, List.map_cons, List.nodup_append] at hnd
    exact ⟨hnd.2.2, (List.nodup_cons.1 hnd.2.1).1⟩
  have h1 : ∀ a ∈ x.connections.take j, ¬ (a.src, a.dst) = (c.src, c.dst) := by
    intro a ha heq
    exact hnodup2.1 (List.mem_map.2 ⟨a, ha, heq⟩) (List.mem_cons_self _ _)
  have h2 : ∀ a ∈ x.connections.drop (j + 1), ¬ (a.src, a.dst) = (c.src, c.dst) := by
    intro a ha heq
    exact hnodup2.2 (List.mem_map.2 ⟨a, ha, heq⟩)
  have hbody : ∀ c' ∈ x.connections,
      ((if c'.dst = c.dst then
          c'.connArgs.map (fun a => ((bnameX x c'.src, a.1), a.2))
        else []).filter (fun e => e.1.1 = bnameX x c.src)) =
      if (c'.src, c'.dst) = (c.src, c.dst) then
        c'.connArgs.map (fun a => ((bnameX x c'.src, a.1), a.2))
      else [] := by
    intro c' hc'
    have hsrc' := (connPairs_mem_lt hwf hc').1
    by_cases hd : c'.dst = c.dst
    · rw [if_pos hd]
      by_cases hs : c'.src = c.src
      · rw [if_pos (by rw [hs, hd])]
        apply List.filter_eq_self.2
        intro e he
        obtain ⟨a, -, hea⟩ := List.mem_map.1 he
        rw [← hea]
        simp [hs]
      · rw [if_neg (by
          intro hp
          exact hs (congrArg Prod.fst hp))]
        apply List.filter_eq_nil_iff.2
        intro e he
        obtain ⟨a, -, hea⟩ := List.mem_map.1 he
        rw [← hea]
        simp only [decide_eq_true_eq]
        intro hname
        exact hs (bnameX_inj hwf hsrc' hsrclt (by simpa using hname))
    · rw [if_neg hd, if_neg (by
        intro hp
        exact hd (congrArg Prod.snd hp))]
      rfl
  unfold nmAcc
  rw [List.take_length, filter_flatMap]
  rw [flatMap_congr _ _ x.connections hbody]
  conv_lhs => rw [hsplit]
  rw [flatMap_unique (fun c' => (c'.src, c'.dst))
    (fun c' => c'.connArgs.map (fun a => ((bnameX x c'.src, a.1), a.2)))
    (x.connections.take j) (x.connections.drop (j + 1)) c h1 h2]
  rw [List.map_map]
  apply List.ext_get
  · simp
  · intro k hk1 hk2
    simp [List.get_eq_getElem, List.getElem_map]

set_option maxHeartbeats 2000000 in
/-- C6. For a dump tree of a valid dag whose block classes are registered
in the library, `load_dag` succeeds and dumping the loaded dag yields the
very same tree: dag metadata, block keys, instance numbering, constructor
args including `name`, and the per-edge connection lists all round-trip,
and the emitted maps are deterministic because the embedded functions are
pure. -/
theorem dump_load_roundtrip (lib : String → Option BClass) (x : DagDump)
    (hwf : C6Wf lib x) :
    ∃ ty d inf, loadDag lib x = .ok (ty, d, inf) ∧
      dumpDag ty x.doc x.site x.title d inf = x := by
  obtain ⟨bl0, inf0, heqB, hfr, hchar⟩ := loadBlocks_spec lib x.blocks 0
    (fun _ => defaultBlockS) (fun _ => defaultBInfo) []
    (fun j => by simpa using hwf.hinst j)
    hwf.hcls
    (by intro u hu; cases hu)
  have hclassAt : ∀ k (hk : k < x.blocks.length) cls,
      lib (x.blocks.get ⟨k, hk⟩).block = some cls → classAt lib x k = cls := by
    intro k hk cls hlb
    unfold classAt
    rw [blockAt_eq_get x hk, hlb]
    rfl
  have hbl0 : ∀ k, k < x.blocks.length →
      bl0 k = ⟨bnameX x k, (classAt lib x k).wfi, .ready, false, [],
        (classAt lib x k).params, (classAt lib x k).hasDoc⟩ := by
    intro k hk
    obtain ⟨cls, hlb, hbl, -⟩ := hchar ⟨k, hk⟩
    have hca := hclassAt k hk cls hlb
    have hbn : bnameX x k = nameOfArgs (x.blocks.get ⟨k, hk⟩).args := by
      unfold bnameX
      rw [blockAt_eq_get x hk]
    rw [hca, hbn]
    simpa using hbl
  have hinf0 : ∀ k (hk : k < x.blocks.length),
      inf0 k = ⟨(x.blocks.get ⟨k, hk⟩).block, (classAt lib x k).initVars,
        (x.blocks.get ⟨k, hk⟩).args⟩ := by
    intro k hk
    obtain ⟨cls, hlb, -, hinf⟩ := hchar ⟨k, hk⟩
    have hca := hclassAt k hk cls hlb
    rw [hca]
    simpa using hinf
  have hbl0nm : ∀ k, (bl0 k).nameMap = [] := by
    intro k
    by_cases hk : k < x.blocks.length
    · rw [hbl0 k hk]
    · have h := (hfr k (Or.inr (by omega))).1
      rw [h]
      rfl
  obtain ⟨d', hloadC, hdpairs, -, -, -, hdblocks⟩ :=
    loadConns_replay lib x hwf bl0 hbl0 x.connections 0 ⟨bl0, [], [], [], [], false⟩
      (by simp) (by simp) rfl rfl rfl
      (by
        intro k
        show bl0 k = _
        have h0 : nmAcc x 0 k = [] := rfl
        rw [h0, ← hbl0nm k])
  refine ⟨if x.dagType = "PanelDag" then "PanelDag" else "Dag", d', inf0, ?_, ?_⟩
  · unfold loadDag
    rw [heqB]
    simp only
    rw [hloadC]
  · have hname' : ∀ k, k < x.blocks.length → (d'.blocks k).name = bnameX x k := by
      intro k hk
      rw [hdblocks k]
      show (bl0 k).name = _
      rw [hbl0 k hk]
    have hmap' : ∀ k, (d'.blocks k).nameMap = nmAcc x x.connections.length k := by
      intro k
      rw [hdblocks k]
    have hdump : dumpDag (if x.dagType = "PanelDag" then "PanelDag" else "Dag")
        x.doc x.site x.title d' inf0 =
        ⟨(if x.dagType = "PanelDag" then "PanelDag" else "Dag"), x.doc, x.site, x.title,
         (forEachOnce d'.pairs).enum.map (fun p =>
           ⟨(inf0 p.2).key, p.1,
            dumpArgs (d'.blocks p.2).name (inf0 p.2).initVars (inf0 p.2).attrs⟩),
         d'.pairs.map (fun p =>
           ⟨(forEachOnce d'.pairs).indexOf p.1, (forEachOnce d'.pairs).indexOf p.2,
            ((d'.blocks p.2).nameMap.filter
              (fun e => e.1.1 = (d'.blocks p.1).name)).map (fun e => (e.1.2, e.2))⟩)⟩ := rfl
    rw [hdump]
    show _ = (⟨x.dagType, x.doc, x.site, x.title, x.blocks, x.connections⟩ : DagDump)
    rw [DagDump.mk.injEq]
    refine ⟨?_, rfl, rfl, rfl, ?_, ?_⟩
    · rcases hwf.htype with h | h
      · rw [h, if_neg (by decide)]
      · rw [h, if_pos rfl]
    · -- the blocks list round-trips
      rw [hdpairs, hwf.hord, enum_range, List.map_map]
      apply List.ext_get
      · simp
      · intro j hj1 hj2
        have hj : j < x.blocks.length := by simpa using hj2
        simp only [List.get_eq_getElem, List.getElem_map, List.getElem_range,
          Function.comp]
        rw [hinf0 j hj]
        simp only
        rw [hname' j hj]
        have hd := (classAt_spec hwf hj).2.2
        rw [blockAt_eq_get x hj] at hd
        rw [hd]
        have hx : x.blocks[j] = (⟨(x.blocks.get ⟨j, hj⟩).block,
            (x.blocks.get ⟨j, hj⟩).inst, (x.blocks.get ⟨j, hj⟩).args⟩ : BlockDump) := rfl
        rw [hx, BlockDump.mk.injEq]
        exact ⟨rfl, (hwf.hinst ⟨j, hj⟩).symm, rfl⟩
    · -- the connections list round-trips
      rw [hdpairs, hwf.hord]
      unfold connPairs
      rw [List.map_map]
      apply List.ext_get
      · simp
      · intro j hj1 hj2
        have hj : j < x.connections.length := by simpa using hj2
        simp only [List.get_eq_getElem, List.getElem_map, Function.comp]
        have hcmem : x.connections[j] ∈ x.connections := List.getElem_mem _
        obtain ⟨hsrclt, hdstlt⟩ := connPairs_mem_lt hwf hcmem
        rw [indexOf_range _ _ hsrclt, indexOf_range _ _ hdstlt]
        rw [hmap', hname' _ hsrclt]
        have hfil := nmAcc_filter lib x hwf j hj
        rw [List.get_eq_getElem] at hfil
        rw [hfil]

/-- A two-class library: class A stores its `x` constructor argument and
has an output param, class B has an input param. -/
def lib0 : String → Option BClass := fun s =>
  if s = "lib.A" then some ⟨["x"], [("out_p", false)], false, true⟩
  else if s = "lib.B" then some ⟨[], [("in_p", false)], false, true⟩
  else none

/-- The dump of a two-block dag `a → b` with one connection. -/
def x0 : DagDump :=
  ⟨"Dag", "d", "s", "t",
   [⟨"lib.A", 0, [("name", .str "a"), ("x", .nat 1)]⟩,
    ⟨"lib.B", 1, [("name", .str "b")]⟩],
   [⟨0, 1, [("out_p", "in_p")]⟩]⟩

theorem dump_load_roundtrip_witness :
    ∃ ty d inf, loadDag lib0 x0 = .ok (ty, d, inf) ∧
      dumpDag ty x0.doc x0.site x0.title d inf = x0 :=
  dump_load_roundtrip lib0 x0
    ⟨by decide, by decide, by decide, by decide, by decide, by decide,
     by decide, by decide, by decide, by decide, by decide⟩

end Sier2
